import Mathlib

/-!
# String tools of the C-to-JSON front end

A shallow embedding of `src/string_tools.c` (`concat_array`, `repeat`) and of the
JSON serializer that `src/ast.c` only announces (modelled from the specification).

Modelling conventions.

* A `char *` that points at a string is the list of the characters stored from the
  pointer on; the cell right after the listed ones holds the terminator, and reading
  any further is undefined.  A listed character may itself be the terminator (this is
  what a returned buffer looks like): the string then ends there.
* The program is embedded by `concat_array32` and `repeat32`: `int` is 32-bit two's
  complement, `size_t` unsigned 64-bit, every integer operation is wrapped to its
  width and the loops test their own condition, on fuel.  The properties of the
  program are stated on these.
* `concat_array` and `repeat` are the same functions on mathematical integers, their
  loops recursions on the remaining trip count.  They are the reference the machine
  functions are compared with: the two agree while no index leaves the `int` range,
  and differ beyond it, where the machine functions have undefined behaviour.
* The serializer is modelled from the specification, with the strings escaped per
  the JSON string rules, and is assembled with `concat_array32`.
* A result buffer is a list of cells of the allocated size; a write outside it is
  undefined behaviour (`none`).  The buffer also records the indices written to.
* The heap is a parameter: whether the (single) allocation request of a call is
  granted, and what a fresh `malloc` block contains.
-/

namespace CToJson

/-- The terminator character of C strings. -/
def NUL : Char := Char.ofNat 0

/-- A pointer to a string: the characters stored from the pointer on. -/
abbrev CStr := List Char

/-- The read `s[j]`: a listed cell, the terminator right after them, nothing beyond. -/
def CStr.at (s : CStr) (j : Nat) : Option Char :=
  if j < s.length then s[j]? else if j = s.length then some NUL else none

/-- The library function `strlen`: the number of characters before the terminator. -/
def strlen : CStr → Nat
  | [] => 0
  | c :: s => if c = NUL then 0 else strlen s + 1

/-- The string a pointer denotes: the characters before the terminator. -/
def cstr : CStr → List Char
  | [] => []
  | c :: s => if c = NUL then [] else c :: cstr s

/-- The heap as seen by one call: is the allocation granted, and what does a fresh
block hold. -/
structure Heap where
  ok : Bool
  junk : Nat → Char

/-- The library function `calloc(count, 1)`: a zeroed block, or `NULL`. -/
def calloc (heap : Heap) (count : Nat) : Option (List Char) :=
  if heap.ok then some (List.replicate count NUL) else none

/-- Modelled from the spec: the wrapper `my_malloc` of `alloc_wrap.h`, which is not
among the sources.  On allocation failure the process terminates with a diagnostic
naming the failing operation; otherwise a block of the requested size with
unspecified contents is returned. -/
def my_malloc (heap : Heap) (size : Nat) (msg : String) : Except String (List Char) :=
  if heap.ok then .ok ((List.range size).map heap.junk) else .error msg

/-- A result buffer under construction: its cells and the indices written so far
(most recent first). -/
structure Buf where
  cells : List Char
  log : List Nat

/-- The write `res[k] = c`; undefined outside the block. -/
def Buf.write (res : Buf) (k : Nat) (c : Char) : Option Buf :=
  if k < res.cells.length then some ⟨res.cells.set k c, k :: res.log⟩ else none

/-- What a call does: return `NULL`, return a pointer, terminate the process with a
diagnostic, or run into undefined behaviour. -/
inductive Outcome
  | null
  | ptr (s : CStr)
  | fatal (msg : String)
  | undefined
deriving DecidableEq, Repr

/-- The loop `for (i = 0; i < n; ++i) len += strlen(array[i]);` on mathematical
integers, with `rem = n - i` iterations to go. -/
def sumLens (array : List CStr) : (rem i len : Nat) → Option Nat
  | 0, _, len => some len
  | rem + 1, i, len =>
    match array[i]? with
    | none => none
    | some s => sumLens array rem (i + 1) (len + strlen s)

/-- The loop `while (src[j] != '\0') res[k++] = src[j++];` on mathematical integers,
where the argument `src` is the memory from `src + j` on. -/
def copyChars : (src : CStr) → (res : Buf) → (k : Nat) → Option (Buf × Nat)
  | [], res, k => some (res, k)
  | c :: src, res, k =>
    if c = NUL then some (res, k)
    else
      match res.write k c with
      | none => none
      | some res => copyChars src res (k + 1)

/-- The main loop of `concat_array`, `for (i = 0; i < n; ++i) { ... }`, on
mathematical integers, with `rem = n - i` iterations to go. -/
def joinLoop (array : List CStr) (delimiter : CStr) (len : Nat) :
    (rem i : Nat) → (res : Buf) → (k : Nat) → Option (Buf × Nat)
  | 0, _, res, k => some (res, k)
  | rem + 1, i, res, k =>
    match array[i]? with
    | none => none
    | some s =>
      match copyChars s res k with
      | none => none
      | some (res, k) =>
        if k = len then some (res, k)
        else
          match copyChars delimiter res k with
          | none => none
          | some (res, k) => joinLoop array delimiter len rem (i + 1) res k

/-- The buffer-filling part of `concat_array` (from `k = 0;` to `res[k] = '\0';`)
on the freshly allocated block `block`. -/
def concat_fill (block : List Char) (array : List CStr) (n : Nat) (delimiter : CStr)
    (len : Nat) : Option Buf :=
  match joinLoop array delimiter len n 0 ⟨block, []⟩ 0 with
  | none => none
  | some (res, k) => res.write k NUL

/-- The function `concat_array(array, n, delimiter)` on mathematical integers: the
reference for `concat_array32`, which it matches while the joined length fits an
`int`. -/
def concat_array (heap : Heap) (array : List CStr) (n : Int) (delimiter : CStr) :
    Outcome :=
  if n < 0 then .null
  else if n = 0 then
    match calloc heap 1 with
    | none => .null
    | some block => .ptr block
  else if n = 1 then
    match array[0]? with
    | none => .undefined
    | some s => .ptr s
  else
    let d_len := strlen delimiter
    match sumLens array n.toNat 0 (d_len * (n.toNat - 1)) with
    | none => .undefined
    | some len =>
      match my_malloc heap (len + 1) "string concatenation" with
      | .error msg => .fatal msg
      | .ok block =>
        match concat_fill block array n.toNat delimiter len with
        | none => .undefined
        | some res => .ptr res.cells

/-- The loop `for (i = 0; i < res_len; ++i) res[i] = str[i % src_len];` on
mathematical integers, with `rem = res_len - i` iterations to go; `i % 0` is
undefined. -/
def fillLoop (str : CStr) (src_len : Nat) : (rem i : Nat) → (res : Buf) → Option (Buf × Nat)
  | 0, i, res => some (res, i)
  | rem + 1, i, res =>
    if src_len = 0 then none
    else
      match str.at (i % src_len) with
      | none => none
      | some c =>
        match res.write i c with
        | none => none
        | some res => fillLoop str src_len rem (i + 1) res

/-- The buffer-filling part of `repeat` (the loop and `res[i] = '\0';`). -/
def repeat_fill (block : List Char) (str : CStr) (src_len res_len : Nat) : Option Buf :=
  match fillLoop str src_len res_len 0 ⟨block, []⟩ with
  | none => none
  | some (res, i) => res.write i NUL

/-- The function `repeat(n, str)` on mathematical integers: the reference for
`repeat32`, which it matches while `n × len(str)` fits an `int`. -/
def «repeat» (heap : Heap) (n : Int) (str : CStr) : Outcome :=
  if n < 0 then .null
  else if n = 0 then
    match calloc heap 1 with
    | none => .null
    | some block => .ptr block
  else if n = 1 then .ptr str
  else
    let src_len := strlen str
    let res_len := src_len * n.toNat
    match my_malloc heap (res_len + 1) "string repetition" with
    | .error msg => .fatal msg
    | .ok block =>
      match repeat_fill block str src_len res_len with
      | none => .undefined
      | some res => .ptr res.cells

/-- A heap that grants the request and hands out blocks full of `'?'`. -/
def heapOk : Heap := ⟨true, fun _ => '?'⟩

/-- A heap that refuses the request. -/
def heapFull : Heap := ⟨false, fun _ => '?'⟩

/-- Modelled from the spec: the node type `astnode` of `ast.h`, which is not among
the sources.  A node has a kind (given by the name of its tag), an optional payload
string and an ordered sequence of owned children. -/
inductive AstNode
  | node (kind : CStr) (payload : Option CStr) (children : List AstNode)

/-- The tree of the spec: a `binary_expr` root with the two literals `1` and `2`. -/
def binaryExprTree : AstNode :=
  .node "binary_expr".toList none
    [.node "literal".toList (some "1".toList) [], .node "literal".toList (some "2".toList) []]

/-! ## The machine-integer embedding

The same two functions once more, now with `int` as 32-bit two's complement and
`size_t` as unsigned 64-bit: every `int` result is wrapped by `wrapInt`, every
`size_t` result by `wrapSize`, an `int` meets a `size_t` through `toSize`, and the
loops test their condition themselves, so they take fuel (`none` when it runs out). -/

/-- The largest value of an `int`. -/
def INT_MAX : Int := 2147483647

/-- An integer wrapped into the range of the 32-bit two's complement `int`. -/
def wrapInt (x : Int) : Int := (x + 2147483648) % 4294967296 - 2147483648

/-- A natural number wrapped into the range of the unsigned 64-bit `size_t`. -/
def wrapSize (x : Nat) : Nat := x % 18446744073709551616

/-- The conversion of an `int` to `size_t`. -/
def toSize (x : Int) : Nat := (x % 18446744073709551616).toNat

/-- The read `s[j]` with an `int` index. -/
def CStr.atInt (s : CStr) (j : Int) : Option Char :=
  if 0 ≤ j then s.at j.toNat else none

/-- The read `array[i]` with an `int` index. -/
def elemInt (array : List CStr) (i : Int) : Option CStr :=
  if 0 ≤ i then array[i.toNat]? else none

/-- The write `res[k] = c` with an `int` index. -/
def Buf.writeInt (res : Buf) (k : Int) (c : Char) : Option Buf :=
  if 0 ≤ k then res.write k.toNat c else none

/-- The loop `for (i = 0; i < n; ++i) len += strlen(array[i]);` on machine
integers. -/
def sumLens32 (array : List CStr) (n : Int) : (fuel : Nat) → (i : Int) → (len : Nat) → Option Nat
  | 0, _, _ => none
  | fuel + 1, i, len =>
    if i < n then
      match elemInt array i with
      | none => none
      | some s => sumLens32 array n fuel (wrapInt (i + 1)) (wrapSize (len + strlen s))
    else some len

/-- The loop `while (src[j] != '\0') res[k++] = src[j++];` on machine integers. -/
def copyChars32 (src : CStr) : (fuel : Nat) → (j : Int) → (res : Buf) → (k : Int) →
    Option (Buf × Int)
  | 0, _, _, _ => none
  | fuel + 1, j, res, k =>
    match src.atInt j with
    | none => none
    | some c =>
      if c = NUL then some (res, k)
      else
        match res.writeInt k c with
        | none => none
        | some res => copyChars32 src fuel (wrapInt (j + 1)) res (wrapInt (k + 1))

/-- The main loop of `concat_array` on machine integers; `gas` is the fuel of the
inner loops, and `k == len` compares the `int` `k`, converted, with the `size_t`
`len`. -/
def joinLoop32 (array : List CStr) (n : Int) (delimiter : CStr) (len gas : Nat) :
    (fuel : Nat) → (i : Int) → (res : Buf) → (k : Int) → Option (Buf × Int)
  | 0, _, _, _ => none
  | fuel + 1, i, res, k =>
    if i < n then
      match elemInt array i with
      | none => none
      | some s =>
        match copyChars32 s gas 0 res k with
        | none => none
        | some (res, k) =>
          if toSize k = len then some (res, k)
          else
            match copyChars32 delimiter gas 0 res k with
            | none => none
            | some (res, k) => joinLoop32 array n delimiter len gas fuel (wrapInt (i + 1)) res k
    else some (res, k)

/-- The function `concat_array(array, n, delimiter)` on machine integers, every loop
running on `gas` units of fuel (the outcome is `undefined` also when a loop runs out
of fuel). -/
def concat_array32 (gas : Nat) (heap : Heap) (array : List CStr) (n : Int)
    (delimiter : CStr) : Outcome :=
  if n < 0 then .null
  else if n = 0 then
    match calloc heap 1 with
    | none => .null
    | some block => .ptr block
  else if n = 1 then
    match array[0]? with
    | none => .undefined
    | some s => .ptr s
  else
    let d_len := strlen delimiter
    match sumLens32 array n gas 0 (wrapSize (d_len * toSize (wrapInt (n - 1)))) with
    | none => .undefined
    | some len =>
      match my_malloc heap (wrapSize (len + 1)) "string concatenation" with
      | .error msg => .fatal msg
      | .ok block =>
        match joinLoop32 array n delimiter len gas gas 0 ⟨block, []⟩ 0 with
        | none => .undefined
        | some (res, k) =>
          match res.writeInt k NUL with
          | none => .undefined
          | some res => .ptr res.cells

/-- The loop `for (i = 0; i < res_len; ++i) res[i] = str[i % src_len];` on machine
integers: the `int` `i` is converted to `size_t` for the test and for the modulo. -/
def fillLoop32 (str : CStr) (src_len res_len : Nat) :
    (fuel : Nat) → (i : Int) → (res : Buf) → Option (Buf × Int)
  | 0, _, _ => none
  | fuel + 1, i, res =>
    if toSize i < res_len then
      if src_len = 0 then none
      else
        match str.at (toSize i % src_len) with
        | none => none
        | some c =>
          match res.writeInt i c with
          | none => none
          | some res => fillLoop32 str src_len res_len fuel (wrapInt (i + 1)) res
    else some (res, i)

/-- The function `repeat(n, str)` on machine integers, its loop running on `gas`
units of fuel (the outcome is `undefined` also when the loop runs out of fuel). -/
def repeat32 (gas : Nat) (heap : Heap) (n : Int) (str : CStr) : Outcome :=
  if n < 0 then .null
  else if n = 0 then
    match calloc heap 1 with
    | none => .null
    | some block => .ptr block
  else if n = 1 then .ptr str
  else
    let src_len := strlen str
    let res_len := wrapSize (src_len * toSize n)
    match my_malloc heap (wrapSize (res_len + 1)) "string repetition" with
    | .error msg => .fatal msg
    | .ok block =>
      match fillLoop32 str src_len res_len gas 0 ⟨block, []⟩ with
      | none => .undefined
      | some (res, i) =>
        match res.writeInt i NUL with
        | none => .undefined
        | some res => .ptr res.cells

/-! ## The serializer

Modelled from the specification: `src/ast.c` only announces `asttojson`. -/

/-- The double quote. -/
def QUOTE : Char := Char.ofNat 34

/-- The backslash. -/
def BACKSLASH : Char := Char.ofNat 92

/-- The hexadecimal digit of a number below sixteen. -/
def hexDigit (n : Nat) : Char :=
  if n < 10 then Char.ofNat (48 + n) else Char.ofNat (87 + n)

/-- Modelled from the spec: a character of a JSON string, escaped per the JSON string
rules: the quote and the backslash get a backslash, a control character becomes
`\u00XX`. -/
def escapeChar (c : Char) : List Char :=
  if c = QUOTE then [BACKSLASH, QUOTE]
  else if c = BACKSLASH then [BACKSLASH, BACKSLASH]
  else if c.toNat < 32 then
    [BACKSLASH, 'u', '0', '0', hexDigit (c.toNat / 16), hexDigit (c.toNat % 16)]
  else [c]

/-- Modelled from the spec: the characters of a JSON string, escaped. -/
def escape : List Char → List Char
  | [] => []
  | c :: s => escapeChar c ++ escape s

/-- Modelled from the spec: the escaped copy of a C string that the serializer
pastes between quotes. -/
def json_escape (s : CStr) : CStr := escape (cstr s)

/-- Modelled from the spec: the pieces of the `"payload"` field, present only when
the node has a payload. -/
def payload_part : Option CStr → List CStr
  | none => []
  | some p => [",\"payload\":\"".toList, json_escape p, "\"".toList]

/-- Modelled from the spec: the pieces of the `"children"` field, the serialized
children joined with `,` by `concat_array` between brackets; omitted when there are
no children. -/
def children_part (gas : Nat) (heap : Heap) : List CStr → Except Outcome (List CStr)
  | [] => .ok []
  | frag :: frags =>
    match concat_array32 gas heap (frag :: frags) ((frag :: frags).length : Nat)
        ",".toList with
    | .ptr joined => .ok [",\"children\":[".toList, joined, "]".toList]
    | o => .error o

mutual
/-- Modelled from the spec: the serializer `to_json`, of which `ast.c` has only the
commented-out declaration `asttojson` (a TODO).  It produces an object with the
`"kind"` field first, the `"payload"` field when present and the `"children"` array
of the recursively serialized children in their stored order; `concat_array` joins
the children with `,` and assembles the pieces of the object with the empty
delimiter; a failure of a string utility is propagated. -/
def to_json (gas : Nat) (heap : Heap) : AstNode → Outcome
  | .node kind payload children =>
    match to_json_children gas heap children with
    | .error o => o
    | .ok frags =>
      match children_part gas heap frags with
      | .error o => o
      | .ok cp =>
        concat_array32 gas heap
          (["\x7b\"kind\":\"".toList, json_escape kind, "\"".toList]
            ++ payload_part payload ++ cp ++ ["\x7d".toList])
          ((["\x7b\"kind\":\"".toList, json_escape kind, "\"".toList]
            ++ payload_part payload ++ cp ++ ["\x7d".toList]).length : Nat) []
/-- Modelled from the spec: the children of a node serialized one after the other,
in their stored order. -/
def to_json_children (gas : Nat) (heap : Heap) : List AstNode → Except Outcome (List CStr)
  | [] => .ok []
  | child :: rest =>
    match to_json gas heap child with
    | .ptr frag =>
      match to_json_children gas heap rest with
      | .ok frags => .ok (frag :: frags)
      | .error o => .error o
    | o => .error o
end

/-- A JSON string: the escaped characters between quotes. -/
def quoted (s : List Char) : List Char := QUOTE :: escape s ++ [QUOTE]

/-- The text of the `"payload"` field with its comma, nothing when the node has no
payload. -/
def payloadText : Option CStr → List Char
  | none => []
  | some p => ",\"payload\":".toList ++ quoted (cstr p)

mutual
/-- The JSON text of a node, following the words of the spec: an object with the
`"kind"` field, the `"payload"` field when the node has a payload, and the
`"children"` array when the node has children. -/
def jsonText : AstNode → List Char
  | .node kind payload children =>
    "\x7b\"kind\":".toList ++ quoted (cstr kind)
      ++ payloadText payload
      ++ (match children with
          | [] => []
          | child :: rest =>
            ",\"children\":[".toList ++ jsonText child ++ jsonTextTail rest ++ "]".toList)
      ++ "\x7d".toList
/-- The JSON texts of the further children, each with a comma in front of it. -/
def jsonTextTail : List AstNode → List Char
  | [] => []
  | child :: rest => ",".toList ++ jsonText child ++ jsonTextTail rest
end

/-- The value of a hexadecimal digit. -/
def hexValue (c : Char) : Option Nat :=
  if 48 ≤ c.toNat ∧ c.toNat < 58 then some (c.toNat - 48)
  else if 97 ≤ c.toNat ∧ c.toNat < 103 then some (c.toNat - 87)
  else none

/-- A JSON string read from after its opening quote up to its closing quote: the
characters it denotes and the rest of the input. -/
def parseStrBody : List Char → Option (List Char × List Char)
  | [] => none
  | c :: rest =>
    if c = QUOTE then some ([], rest)
    else if c = BACKSLASH then
      match rest with
      | [] => none
      | e :: rest1 =>
        if e = QUOTE ∨ e = BACKSLASH then
          (parseStrBody rest1).map (fun p => (e :: p.1, p.2))
        else if e = 'u' then
          match rest1 with
          | z1 :: z2 :: a :: b :: rest2 =>
            if z1 = '0' ∧ z2 = '0' then
              match hexValue a, hexValue b with
              | some x, some y =>
                (parseStrBody rest2).map (fun p => (Char.ofNat (16 * x + y) :: p.1, p.2))
              | _, _ => none
            else none
          | _ => none
        else none
    else if c.toNat < 32 then none
    else (parseStrBody rest).map (fun p => (c :: p.1, p.2))

/-- A JSON string read from its opening quote on. -/
def parseString : List Char → Option (List Char × List Char)
  | [] => none
  | c :: rest => if c = QUOTE then parseStrBody rest else none

/-- The input after the literal `lit`, when it starts with it. -/
def expect (lit input : List Char) : Option (List Char) :=
  if lit.isPrefixOf input then some (input.drop lit.length) else none

/-- The optional `"payload"` field read back: its string, or nothing when the input
does not go on with this field. -/
def parsePayload (input : List Char) : Option (Option (List Char) × List Char) :=
  match expect ",\"payload\":".toList input with
  | none => some (none, input)
  | some r =>
    match parseString r with
    | none => none
    | some (p, r1) => some (some p, r1)

mutual
/-- A JSON object of the serializer's layout read back into a node: the `"kind"`
string, the optional `"payload"` string and the optional non-empty `"children"`
array, recursively; the result comes with the rest of the input. -/
def parseNode : Nat → List Char → Option (AstNode × List Char)
  | 0, _ => none
  | fuel + 1, input =>
    match expect "\x7b\"kind\":".toList input with
    | none => none
    | some r1 =>
      match parseString r1 with
      | none => none
      | some (kind, r2) =>
        match parsePayload r2 with
        | none => none
        | some (payload, r3) =>
          match expect ",\"children\":[".toList r3 with
          | none =>
            match expect "\x7d".toList r3 with
            | none => none
            | some r5 => some (.node kind payload [], r5)
          | some r4 =>
            match parseChildren fuel r4 with
            | none => none
            | some (children, r5) =>
              match expect "\x7d".toList r5 with
              | none => none
              | some r6 => some (.node kind payload children, r6)
/-- The elements of a non-empty array of nodes, read up to the closing bracket. -/
def parseChildren : Nat → List Char → Option (List AstNode × List Char)
  | 0, _ => none
  | fuel + 1, input =>
    match parseNode fuel input with
    | none => none
    | some (child, r1) =>
      match expect "]".toList r1 with
      | some r2 => some ([child], r2)
      | none =>
        match expect ",".toList r1 with
        | none => none
        | some r2 =>
          match parseChildren fuel r2 with
          | none => none
          | some (rest, r3) => some (child :: rest, r3)
end

mutual
/-- The node with every string replaced by its contents. -/
def AstNode.contents : AstNode → AstNode
  | .node kind payload children =>
    .node (cstr kind) (payload.map cstr) (contentsList children)
/-- The nodes with every string replaced by its contents. -/
def contentsList : List AstNode → List AstNode
  | [] => []
  | child :: rest => child.contents :: contentsList rest
end

mutual
/-- The fuel that reading a node back takes. -/
def fuelNeeded : AstNode → Nat
  | .node _ _ children => 1 + fuelNeededList children
/-- The fuel that reading the elements of an array back takes. -/
def fuelNeededList : List AstNode → Nat
  | [] => 0
  | child :: rest => 1 + max (fuelNeeded child) (fuelNeededList rest)
end

/-- A string of `2^31` characters. -/
def hugeString : CStr := List.replicate 2147483648 'a'

/-- A leaf whose payload has `2^31` characters. -/
def hugeTree : AstNode := .node "literal".toList (some hugeString) []

/-! ## Specification-side definitions -/

/-- The buffer state in which the cells `pre` have been written, in order, and the
cells `rest` have not. -/
def filled (pre rest : List Char) : Buf × Nat :=
  (⟨pre ++ rest, (List.range pre.length).reverse⟩, pre.length)

/-- What follows the first element of a joined string: each further element, with
the delimiter in front of it. -/
def sepTail (d : List Char) : List (List Char) → List Char
  | [] => []
  | t :: ts => d ++ t ++ sepTail d ts

/-- The length `concat_array` precomputes for the elements `its`. -/
def joinedLen (its : List CStr) (d : CStr) : Nat :=
  (its.map strlen).sum + (its.length - 1) * strlen d

/-- The state `filled pre rest` as the machine-integer loops carry it. -/
def filled32 (pre rest : List Char) : Buf × Int :=
  ((filled pre rest).1, ((filled pre rest).2 : Int))

/-- The write index `k` tracks the buffer: it is an `int`, and while it is not
negative it is the number of writes made so far. -/
def Tracks (res : Buf) (k : Int) : Prop :=
  -2147483648 ≤ k ∧ k ≤ INT_MAX ∧ (0 ≤ k → k = (res.log.length : Int))

/-- A string of `2^30` characters. -/
def bigString : CStr := List.replicate 1073741824 'a'

/-- The character the fill loop of `repeat` stores at index `j`. -/
def cycleChar (str : CStr) (j : Nat) : Char :=
  (cstr str).getD (j % strlen str) NUL

/-! ## Strings and their contents -/

theorem length_cstr (s : CStr) : (cstr s).length = strlen s := by
  induction s with
  | nil => rfl
  | cons c s ih => by_cases h : c = NUL <;> simp [cstr, strlen, h, ih]

theorem nul_not_mem_cstr (s : CStr) : NUL ∉ cstr s := by
  induction s with
  | nil => simp [cstr]
  | cons c s ih =>
    by_cases h : c = NUL
    · simp [cstr, h]
    · simp [cstr, h, ih]; exact fun e => h e.symm

theorem cstr_append_nul (l r : List Char) (h : NUL ∉ l) : cstr (l ++ NUL :: r) = l := by
  induction l with
  | nil => simp [cstr]
  | cons c l ih =>
    have hc : c ≠ NUL := fun e => h (by simp [e])
    have hl : NUL ∉ l := fun e => h (by simp [e])
    simp [cstr, hc, ih hl]

theorem strlen_append_nul (l r : List Char) (h : NUL ∉ l) :
    strlen (l ++ NUL :: r) = l.length := by
  rw [← length_cstr, cstr_append_nul l r h]

theorem cstr_of_not_mem (l : List Char) (h : NUL ∉ l) : cstr l = l := by
  induction l with
  | nil => rfl
  | cons c l ih =>
    have hc : c ≠ NUL := fun e => h (by simp [e])
    have hl : NUL ∉ l := fun e => h (by simp [e])
    simp [cstr, hc, ih hl]

theorem strlen_le_length (s : CStr) : strlen s ≤ s.length := by
  induction s with
  | nil => simp [strlen]
  | cons c s ih => by_cases h : c = NUL <;> simp [strlen, h]; omega

/-- Below `strlen`, the cells of a string are the characters of its contents. -/
theorem at_eq_cstr (s : CStr) (j : Nat) (h : j < strlen s) : s.at j = (cstr s)[j]? := by
  induction s generalizing j with
  | nil => simp [strlen] at h
  | cons c s ih =>
    by_cases hc : c = NUL
    · simp [strlen, hc] at h
    · have hl := strlen_le_length s
      simp only [strlen, hc, if_false] at h
      cases j with
      | zero => simp [CStr.at, cstr, hc]
      | succ j =>
        have hj : j < strlen s := by omega
        have := ih j hj
        have h1 : j < s.length := by omega
        simp only [CStr.at, h1, if_true] at this
        simp only [CStr.at, cstr, hc, if_false, List.length_cons, Nat.add_lt_add_iff_right, h1,
          if_true, List.getElem?_cons_succ]
        exact this

/-! ## Buffers -/

theorem write_filled (pre : List Char) (x : Char) (rest : List Char) (c : Char) :
    (filled pre (x :: rest)).1.write (filled pre (x :: rest)).2 c
      = some (filled (pre ++ [c]) rest).1 := by
  simp [filled, Buf.write, List.range_succ]

/-- The state of a block of `L + 1` cells whose first `L` cells have just been
written: every index written is below `L`, and the terminator goes to index `L`. -/
theorem filled_terminated (J : List Char) (x : Char) (L : Nat) (hJ : J.length = L) :
    (∀ k ∈ (filled J [x]).1.log, k < L)
      ∧ (filled J [x]).1.log = (List.range L).reverse
      ∧ (filled J [x]).1.cells.take L = J
      ∧ (filled J [x]).1.write L NUL = some (filled (J ++ [NUL]) []).1
      ∧ (filled (J ++ [NUL]) []).1.log = L :: (filled J [x]).1.log
      ∧ L < (filled (J ++ [NUL]) []).1.cells.length
      ∧ (filled (J ++ [NUL]) []).1.cells = J ++ [NUL]
      ∧ (filled J [x]).2 = L := by
  subst hJ
  have hw := write_filled J x [] NUL
  refine ⟨?_, rfl, ?_, hw, ?_, ?_, ?_, rfl⟩
  · intro k hk
    simpa [filled] using hk
  · simp [filled]
  · simp [filled, List.range_succ]
  · simp [filled]
  · simp [filled]

theorem copyChars_filled (src : CStr) : ∀ (pre rest : List Char),
    strlen src ≤ rest.length →
    copyChars src (filled pre rest).1 (filled pre rest).2
      = some (filled (pre ++ cstr src) (rest.drop (strlen src))) := by
  induction src with
  | nil => intro pre rest _; simp [copyChars, cstr, strlen]
  | cons c src ih =>
    intro pre rest h
    by_cases hc : c = NUL
    · simp [copyChars, cstr, strlen, hc]
    · simp only [strlen, hc, if_false] at h
      cases rest with
      | nil => simp at h
      | cons x rest =>
        have h1 : strlen src ≤ rest.length := by simpa using h
        have hw := write_filled pre x rest c
        have hk : (filled pre (x :: rest)).2 + 1 = (filled (pre ++ [c]) rest).2 := by
          simp [filled]
        simp only [copyChars, hc, if_false, hw, hk, ih _ _ h1, cstr, strlen]
        simp

/-! ## The loops of `concat_array` -/

theorem intercalate_cons (d s : List Char) (ts : List (List Char)) :
    List.intercalate d (s :: ts) = s ++ sepTail d ts := by
  induction ts generalizing s with
  | nil => simp [List.intercalate, sepTail]
  | cons t ts ih =>
    have := ih t
    simp only [List.intercalate] at this ⊢
    simp [sepTail, this]

theorem length_sepTail (d : CStr) (ts : List CStr) :
    (sepTail (cstr d) (ts.map cstr)).length
      = (ts.map strlen).sum + ts.length * strlen d := by
  induction ts with
  | nil => simp [sepTail]
  | cons t ts ih =>
    simp only [List.map_cons, sepTail, List.length_append, length_cstr, ih, List.sum_cons,
      List.length_cons, Nat.add_mul, Nat.one_mul]
    omega

theorem drop_eq_cons {α : Type} {l : List α} {i : Nat} {x : α} {xs : List α}
    (h : l.drop i = x :: xs) : l[i]? = some x ∧ l.drop (i + 1) = xs := by
  constructor
  · have := List.getElem?_drop l i 0
    rw [h] at this
    simpa using this.symm
  · have := congrArg List.tail h
    simpa using this

theorem sumLens_eq (array : List CStr) : ∀ (its : List CStr) (i len0 : Nat) (more : List CStr),
    array.drop i = its ++ more →
    sumLens array its.length i len0 = some (len0 + (its.map strlen).sum) := by
  intro its
  induction its with
  | nil => intro i len0 more _; simp [sumLens]
  | cons s its ih =>
    intro i len0 more h
    obtain ⟨h1, h2⟩ := drop_eq_cons h
    simp only [List.length_cons, sumLens, h1, ih (i + 1) (len0 + strlen s) more h2,
      List.map_cons, List.sum_cons, Nat.add_assoc]

theorem length_intercalate (d : CStr) (its : List CStr) :
    (List.intercalate (cstr d) (its.map cstr)).length = joinedLen its d := by
  cases its with
  | nil => simp [List.intercalate, joinedLen]
  | cons s ts =>
    rw [List.map_cons, intercalate_cons, List.length_append, length_sepTail, length_cstr]
    simp [joinedLen]; omega

theorem joinLoop_filled (array : List CStr) (d : CStr) (len : Nat) :
    ∀ (its : List CStr) (i : Nat) (pre rest : List Char) (more : List CStr),
    array.drop i = its ++ more →
    len = pre.length + joinedLen its d →
    joinedLen its d ≤ rest.length →
    joinLoop array d len its.length i (filled pre rest).1 (filled pre rest).2
      = some (filled (pre ++ List.intercalate (cstr d) (its.map cstr))
          (rest.drop (joinedLen its d))) := by
  intro its
  induction its with
  | nil =>
    intro i pre rest more _ _ _
    simp [joinLoop, List.intercalate, joinedLen]
  | cons s ts ih =>
    intro i pre rest more h hlen hfit
    obtain ⟨h1, h2⟩ := drop_eq_cons h
    have hJ := length_intercalate d (s :: ts)
    rw [List.map_cons, intercalate_cons] at hJ ⊢
    have hT := length_sepTail d ts
    simp only [List.length_append, length_cstr] at hJ
    have hs : strlen s ≤ rest.length := by omega
    simp only [List.length_cons, joinLoop, h1, copyChars_filled s pre rest hs]
    by_cases hk : (filled (pre ++ cstr s) (rest.drop (strlen s))).2 = len
    · have h0 : (sepTail (cstr d) (ts.map cstr)).length = 0 := by
        simp only [filled, List.length_append, length_cstr] at hk
        omega
      have hnil : sepTail (cstr d) (ts.map cstr) = [] := List.length_eq_zero.mp h0
      have hj : joinedLen (s :: ts) d = strlen s := by rw [← hJ, h0]; rfl
      simp only [hk, if_true, hnil, hj, List.append_nil]
      rw [← hk]
    · simp only [hk, if_false]
      cases ts with
      | nil =>
        exfalso
        apply hk
        simp only [filled, List.length_append, length_cstr]
        simp [joinedLen] at hlen
        omega
      | cons t ts =>
        have hj : joinedLen (s :: t :: ts) d = strlen s + strlen d + joinedLen (t :: ts) d := by
          simp only [joinedLen, List.map_cons, List.sum_cons, List.length_cons,
            Nat.add_sub_cancel, Nat.add_mul, Nat.one_mul]
          omega
        have hd : strlen d ≤ (rest.drop (strlen s)).length := by
          simp only [List.length_drop]; omega
        rw [copyChars_filled d _ _ hd]
        have := ih (i + 1) (pre ++ cstr s ++ cstr d) ((rest.drop (strlen s)).drop (strlen d)) more
          h2 (by simp only [List.length_append, length_cstr]; omega)
          (by simp only [List.length_drop]; omega)
        simp only [List.drop_drop, List.append_assoc, List.map_cons, intercalate_cons] at this
        simp only [List.drop_drop, List.append_assoc, List.map_cons, sepTail, hj, this]

/-! ## `concat_array` as a whole -/

theorem my_malloc_ok (heap : Heap) (h : heap.ok = true) (size : Nat) (msg : String) :
    my_malloc heap size msg = .ok ((List.range size).map heap.junk) := by
  simp [my_malloc, h]

theorem exists_cons_of_length_succ {α : Type} (l : List α) (m : Nat) (h : l.length = m + 1) :
    ∃ x, l.drop m = [x] := by
  have h1 : (l.drop m).length = 1 := by simp [h]
  match hd : l.drop m, h1 with
  | [x], _ => exact ⟨x, rfl⟩

/-- The buffer-filling part of `concat_array`, run on a block of the precomputed
size plus one: the cells end up holding the joined string and the terminator, and the
indices written are `0, 1, ..., len` in this order. -/
theorem concat_fill_eq (block : List Char) (array : List CStr) (n : Nat) (d : CStr)
    (hn : n ≤ array.length) (hb : block.length = joinedLen (array.take n) d + 1) :
    concat_fill block array n d (joinedLen (array.take n) d)
      = some ⟨List.intercalate (cstr d) ((array.take n).map cstr) ++ [NUL],
          (List.range (joinedLen (array.take n) d + 1)).reverse⟩ := by
  have hl : (array.take n).length = n := by simp [hn]
  have hloop := joinLoop_filled array d (joinedLen (array.take n) d) (array.take n) 0 []
    block (array.drop n) (by simp) (by simp) (by omega)
  rw [hl] at hloop
  have h0 : filled [] block = (⟨block, []⟩, 0) := rfl
  rw [h0] at hloop
  obtain ⟨x, hx⟩ := exists_cons_of_length_succ block _ hb
  simp only [concat_fill, hloop, hx, List.nil_append]
  rw [write_filled]
  simp only [filled, List.append_nil, List.length_append, List.length_singleton,
    length_intercalate]

theorem concat_array_of_two_le (heap : Heap) (array : List CStr) (n : Int) (d : CStr)
    (hok : heap.ok = true) (h2 : 2 ≤ n) (hn : n ≤ array.length) :
    concat_array heap array n d
      = .ptr (List.intercalate (cstr d) ((array.take n.toNat).map cstr) ++ [NUL]) := by
  have hn' : n.toNat ≤ array.length := by omega
  have hl : (array.take n.toNat).length = n.toNat := by simp [hn']
  have hsum := sumLens_eq array (array.take n.toNat) 0 (strlen d * (n.toNat - 1))
    (array.drop n.toNat) (by simp)
  rw [hl] at hsum
  have hlen : strlen d * (n.toNat - 1) + ((array.take n.toNat).map strlen).sum
      = joinedLen (array.take n.toNat) d := by
    simp only [joinedLen, hl, Nat.mul_comm]; omega
  rw [hlen] at hsum
  have hfill := concat_fill_eq ((List.range (joinedLen (array.take n.toNat) d + 1)).map heap.junk)
    array n.toNat d hn' (by simp)
  have c0 : ¬ n < 0 := by omega
  have c1 : ¬ n = 0 := by omega
  have c2 : ¬ n = 1 := by omega
  simp only [concat_array, c0, c1, c2, if_false, hsum, my_malloc_ok heap hok, hfill]

theorem nul_not_mem_sepTail (d : CStr) (ts : List CStr) :
    NUL ∉ sepTail (cstr d) (ts.map cstr) := by
  induction ts with
  | nil => simp [sepTail]
  | cons t ts ih => simp [sepTail, nul_not_mem_cstr, ih]

theorem nul_not_mem_intercalate (d : CStr) (its : List CStr) :
    NUL ∉ List.intercalate (cstr d) (its.map cstr) := by
  cases its with
  | nil => simp [List.intercalate]
  | cons s ts =>
    rw [List.map_cons, intercalate_cons]
    simp [nul_not_mem_cstr, nul_not_mem_sepTail]

/-! ## The loop of `repeat` -/

theorem at_mod_strlen (str : CStr) (j : Nat) (h : 0 < strlen str) :
    str.at (j % strlen str) = some (cycleChar str j) := by
  have hj : j % strlen str < strlen str := Nat.mod_lt _ h
  have hj' : j % strlen str < (cstr str).length := by rw [length_cstr]; exact hj
  rw [at_eq_cstr str _ hj, cycleChar, List.getD_eq_getElem _ _ hj',
    List.getElem?_eq_getElem hj']

theorem fillLoop_filled (str : CStr) : ∀ (rem : Nat) (pre rest : List Char),
    rem ≤ rest.length → (rem = 0 ∨ 0 < strlen str) →
    fillLoop str (strlen str) rem (filled pre rest).2 (filled pre rest).1
      = some (filled (pre ++ (List.range' pre.length rem).map (cycleChar str))
          (rest.drop rem)) := by
  intro rem
  induction rem with
  | zero => intro pre rest _ _; simp [fillLoop, filled]
  | succ rem ih =>
    intro pre rest hfit hpos
    have hpos : 0 < strlen str := by omega
    have hne : ¬ strlen str = 0 := by omega
    cases rest with
    | nil => simp at hfit
    | cons x rest =>
      have hfit1 : rem ≤ rest.length := by simpa using hfit
      have hw := write_filled pre x rest (cycleChar str (filled pre (x :: rest)).2)
      have hk : (filled pre (x :: rest)).2 + 1
          = (filled (pre ++ [cycleChar str (filled pre (x :: rest)).2]) rest).2 := by
        simp [filled]
      rw [fillLoop]
      simp only [hne, if_false]
      rw [at_mod_strlen str _ hpos]
      simp only []
      rw [hw]
      simp only []
      rw [hk, ih _ _ hfit1 (Or.inr hpos)]
      simp [List.range'_succ, filled]

theorem map_getD_range (l : List Char) (d : Char) :
    (List.range l.length).map (fun t => l.getD t d) = l := by
  apply List.ext_getElem
  · simp
  · intro n h1 h2
    simp at h1
    simp [List.getElem?_eq_getElem h2]

/-- Filling by modular indexing writes whole copies of the string. -/
theorem map_cycleChar_range (str : CStr) (n : Nat) :
    (List.range (strlen str * n)).map (cycleChar str) = (List.replicate n (cstr str)).flatten := by
  induction n with
  | zero => simp
  | succ n ih =>
    rw [Nat.mul_succ, List.range_add, List.map_append, ih, List.replicate_succ',
      List.flatten_append, List.map_map]
    congr 1
    have hmap : (List.range (strlen str)).map (cycleChar str ∘ fun x => strlen str * n + x)
        = (List.range (strlen str)).map (fun t => (cstr str).getD t NUL) := by
      apply List.map_congr_left
      intro t ht
      have ht' : t < strlen str := List.mem_range.mp ht
      simp only [Function.comp, cycleChar, Nat.mul_add_mod, Nat.mod_eq_of_lt ht']
    rw [hmap, ← length_cstr, map_getD_range]
    simp

/-! ## `repeat` as a whole -/

/-- The buffer-filling part of `repeat`, run on a block of `strlen str * n + 1`
cells: it never divides by zero, stays inside the block, and writes the indices
`0, 1, ..., strlen str * n` in this order. -/
theorem repeat_fill_eq (block : List Char) (str : CStr) (n : Nat)
    (hb : block.length = strlen str * n + 1) :
    repeat_fill block str (strlen str) (strlen str * n)
      = some ⟨(List.range (strlen str * n)).map (cycleChar str) ++ [NUL],
          (List.range (strlen str * n + 1)).reverse⟩ := by
  have hpos : strlen str * n = 0 ∨ 0 < strlen str := by
    rcases Nat.eq_zero_or_pos (strlen str) with h | h
    · left; simp [h]
    · right; exact h
  have hloop := fillLoop_filled str (strlen str * n) [] block (by omega) hpos
  have h0 : filled [] block = (⟨block, []⟩, 0) := rfl
  rw [h0] at hloop
  obtain ⟨x, hx⟩ := exists_cons_of_length_succ block _ hb
  simp only [repeat_fill, hloop, hx, List.nil_append, List.length_nil, ← List.range_eq_range']
  rw [write_filled]
  simp only [filled, List.append_nil, List.length_append, List.length_singleton,
    List.length_map, List.length_range]

theorem repeat_of_two_le (heap : Heap) (n : Int) (str : CStr)
    (hok : heap.ok = true) (h2 : 2 ≤ n) :
    «repeat» heap n str
      = .ptr ((List.range (strlen str * n.toNat)).map (cycleChar str) ++ [NUL]) := by
  have hfill := repeat_fill_eq ((List.range (strlen str * n.toNat + 1)).map heap.junk)
    str n.toNat (by simp)
  have c0 : ¬ n < 0 := by omega
  have c1 : ¬ n = 0 := by omega
  have c2 : ¬ n = 1 := by omega
  simp only [«repeat», c0, c1, c2, if_false, my_malloc_ok heap hok, hfill]

theorem nul_not_mem_flatten_replicate (str : CStr) (n : Nat) :
    NUL ∉ (List.replicate n (cstr str)).flatten := by
  simp only [List.mem_flatten, List.mem_replicate, not_exists, not_and]
  rintro l ⟨_, rfl⟩
  exact nul_not_mem_cstr str

/-- For every `n ≥ 0` the call `repeat(n, str)` returns a string whose contents is
`n` copies of the contents of `str`. -/
theorem repeat_ptr (heap : Heap) (n : Int) (str : CStr) (hok : heap.ok = true) (h0 : 0 ≤ n) :
    ∃ s, «repeat» heap n str = .ptr s
      ∧ cstr s = (List.replicate n.toNat (cstr str)).flatten := by
  rcases Int.lt_or_le n 2 with h | h
  · rcases Int.lt_or_le n 1 with h' | h'
    · have hn : n = 0 := by omega
      subst hn
      exact ⟨[NUL], by simp [«repeat», calloc, hok], by simp [cstr]⟩
    · have hn : n = 1 := by omega
      subst hn
      exact ⟨str, by simp [«repeat»], by simp⟩
  · refine ⟨_, repeat_of_two_le heap n str hok h, ?_⟩
    rw [map_cycleChar_range, cstr_append_nul _ _ (nul_not_mem_flatten_replicate str _)]

/-- For every `n ≥ 0` with `n` strings at hand, `concat_array` returns a string whose
contents is the joined contents of the first `n` elements; for `n = 1` the pointer
returned is the element itself. -/
theorem concat_array_ptr (heap : Heap) (array : List CStr) (n : Int) (d : CStr)
    (hok : heap.ok = true) (h0 : 0 ≤ n) (hn : n ≤ array.length) :
    ∃ s, concat_array heap array n d = .ptr s
      ∧ cstr s = List.intercalate (cstr d) ((array.take n.toNat).map cstr)
      ∧ (n = 1 → array[0]? = some s) := by
  rcases Int.lt_or_le n 2 with h | h
  · rcases Int.lt_or_le n 1 with h' | h'
    · have hz : n = 0 := by omega
      subst hz
      exact ⟨[NUL], by simp [concat_array, calloc, hok], by simp [cstr, List.intercalate],
        by simp⟩
    · have h1 : n = 1 := by omega
      subst h1
      cases array with
      | nil => simp at hn
      | cons a array =>
        exact ⟨a, by simp [concat_array], by simp [List.intercalate], by simp⟩
  · refine ⟨_, concat_array_of_two_le heap array n d hok h hn, ?_, by omega⟩
    rw [cstr_append_nul _ _ (nul_not_mem_intercalate d _)]

theorem sepTail_nil (ts : List (List Char)) : sepTail [] ts = ts.flatten := by
  induction ts with
  | nil => rfl
  | cons t ts ih => simp [sepTail, ih]

theorem intercalate_nil (xs : List (List Char)) : List.intercalate [] xs = xs.flatten := by
  cases xs with
  | nil => simp [List.intercalate]
  | cons x xs => rw [intercalate_cons, sepTail_nil, List.flatten_cons]

/-! ## Further facts on `repeat` -/

/-- The three successful shapes of `repeat(n, str)`. -/
theorem repeat_cases (heap : Heap) (n : Nat) (str : CStr) (hok : heap.ok = true) :
    (n = 0 → «repeat» heap (n : Int) str = .ptr [NUL])
      ∧ (n = 1 → «repeat» heap (n : Int) str = .ptr str)
      ∧ (2 ≤ n → «repeat» heap (n : Int) str
          = .ptr ((List.replicate n (cstr str)).flatten ++ [NUL])) := by
  refine ⟨?_, ?_, ?_⟩
  · rintro rfl
    simp [«repeat», calloc, hok]
  · rintro rfl
    simp [«repeat»]
  · intro h
    rw [repeat_of_two_le heap (n : Int) str hok (by omega), Int.toNat_ofNat,
      map_cycleChar_range]

theorem flatten_replicate_flatten (m n : Nat) (l : List Char) :
    (List.replicate m (List.replicate n l).flatten).flatten
      = (List.replicate (m * n) l).flatten := by
  induction m with
  | zero => simp
  | succ m ih =>
    rw [List.replicate_succ, List.flatten_cons, ih, Nat.succ_mul, Nat.add_comm (m * n) n,
      List.replicate_add, List.flatten_append]

/-! ## The machine-integer loops -/

theorem wrapInt_eq (x : Int) (h0 : 0 ≤ x) (h1 : x ≤ INT_MAX) : wrapInt x = x := by
  simp only [wrapInt, INT_MAX] at *
  omega

theorem toSize_eq (x : Nat) (h1 : (x : Int) ≤ INT_MAX) : toSize (x : Int) = x := by
  simp only [toSize, INT_MAX] at *
  omega

theorem wrapSize_eq (x : Nat) (h1 : (x : Int) ≤ INT_MAX + 1) : wrapSize x = x := by
  simp only [wrapSize, INT_MAX] at *
  omega

theorem writeInt_natCast (res : Buf) (k : Nat) (c : Char) :
    res.writeInt (k : Int) c = res.write k c := by
  simp [Buf.writeInt]

theorem atInt_natCast (s : CStr) (j : Nat) : s.atInt (j : Int) = s.at j := by
  simp [CStr.atInt]

theorem elemInt_natCast (array : List CStr) (i : Nat) : elemInt array (i : Int) = array[i]? := by
  simp [elemInt]

theorem at_length_append (done remaining : List Char) :
    CStr.at (done ++ remaining) done.length = some (remaining.headD NUL) := by
  cases remaining with
  | nil => simp [CStr.at]
  | cons c remaining =>
    have hlt : done.length < (done ++ c :: remaining).length := by simp
    rw [CStr.at, if_pos hlt, List.getElem?_append_right (Nat.le_refl _)]
    simp

/-- While no index leaves the `int` range, the machine copy loop does what the copy
loop on mathematical integers does. -/
theorem copyChars32_eq (src : CStr) : ∀ (remaining done : List Char) (fuel : Nat)
    (res : Buf) (k : Nat),
    src = done ++ remaining → strlen remaining < fuel →
    ((done.length + strlen remaining : Nat) : Int) ≤ INT_MAX →
    ((k + strlen remaining : Nat) : Int) ≤ INT_MAX →
    copyChars32 src fuel (done.length : Int) res (k : Int)
      = (copyChars remaining res k).map (fun p => (p.1, (p.2 : Int))) := by
  intro remaining
  induction remaining with
  | nil =>
    intro done fuel res k hsrc hfuel _ _
    obtain ⟨fuel, rfl⟩ : ∃ f, fuel = f + 1 := ⟨fuel - 1, by omega⟩
    subst hsrc
    have hat := at_length_append done []
    simp only [List.headD_nil] at hat
    simp only [copyChars32, atInt_natCast, hat, if_true, copyChars, Option.map_some']
  | cons c remaining ih =>
    intro done fuel res k hsrc hfuel hj hk
    obtain ⟨fuel, rfl⟩ : ∃ f, fuel = f + 1 := ⟨fuel - 1, by omega⟩
    subst hsrc
    by_cases hc : c = NUL
    · simp [copyChars32, atInt_natCast, at_length_append, copyChars, hc]
    · simp only [strlen, hc, if_false] at hfuel hj hk
      have hj1 : wrapInt ((done.length : Int) + 1) = ((done ++ [c]).length : Nat) := by
        rw [wrapInt_eq _ (by omega) (by omega)]; simp
      have hk1 : wrapInt ((k : Int) + 1) = ((k + 1 : Nat) : Int) := by
        rw [wrapInt_eq _ (by omega) (by omega)]; simp
      simp only [copyChars32, atInt_natCast, at_length_append, List.headD_cons, hc, if_false,
        writeInt_natCast, copyChars, hj1, hk1]
      cases hw : res.write k c with
      | none => simp
      | some res1 =>
        simp only []
        exact ih (done ++ [c]) fuel res1 (k + 1) (by simp) (by omega)
          (by simp only [List.length_append, List.length_singleton]; omega) (by omega)

theorem copyChars32_filled (src : CStr) (fuel : Nat) (pre rest : List Char)
    (hfit : strlen src ≤ rest.length) (hfuel : strlen src < fuel)
    (hk : ((pre.length + strlen src : Nat) : Int) ≤ INT_MAX) :
    copyChars32 src fuel 0 (filled32 pre rest).1 (filled32 pre rest).2
      = some (filled32 (pre ++ cstr src) (rest.drop (strlen src))) := by
  have h := copyChars32_eq src src [] fuel (filled pre rest).1 pre.length rfl hfuel
    (by simp only [List.length_nil, Nat.zero_add]; omega) hk
  have h2 : (filled pre rest).2 = pre.length := rfl
  rw [← h2, copyChars_filled src pre rest hfit] at h
  exact h

theorem sumLens32_eq (array : List CStr) (n : Int) (hn : n ≤ INT_MAX) :
    ∀ (its : List CStr) (i len0 : Nat) (more : List CStr) (fuel : Nat),
    array.drop i = its ++ more → ((i + its.length : Nat) : Int) = n → its.length < fuel →
    ((len0 + (its.map strlen).sum : Nat) : Int) ≤ INT_MAX →
    sumLens32 array n fuel (i : Int) len0 = some (len0 + (its.map strlen).sum) := by
  intro its
  induction its with
  | nil =>
    intro i len0 more fuel _ hi hfuel _
    obtain ⟨fuel, rfl⟩ : ∃ f, fuel = f + 1 := ⟨fuel - 1, by omega⟩
    have hlt : ¬ (i : Int) < n := by simp at hi; omega
    simp [sumLens32, hlt]
  | cons s its ih =>
    intro i len0 more fuel h hi hfuel hsum
    obtain ⟨fuel, rfl⟩ : ∃ f, fuel = f + 1 := ⟨fuel - 1, by omega⟩
    obtain ⟨h1, h2⟩ := drop_eq_cons h
    simp only [List.length_cons, List.map_cons, List.sum_cons] at hi hfuel hsum
    have hlt : (i : Int) < n := by omega
    have hi1 : wrapInt ((i : Int) + 1) = ((i + 1 : Nat) : Int) := by
      rw [wrapInt_eq _ (by omega) (by omega)]; simp
    have hw : wrapSize (len0 + strlen s) = len0 + strlen s :=
      wrapSize_eq _ (by omega)
    simp only [sumLens32, hlt, if_true, elemInt_natCast, h1, hi1, hw, List.map_cons,
      List.sum_cons]
    rw [ih (i + 1) (len0 + strlen s) more fuel h2 (by omega) (by omega) (by omega)]
    simp only [Nat.add_assoc]

/-- While the total length fits an `int`, the machine main loop of `concat_array`
does what the loop on mathematical integers does. -/
theorem joinLoop32_filled (array : List CStr) (n : Int) (d : CStr) (len gas : Nat)
    (hn : n ≤ INT_MAX) (hlen : (len : Int) ≤ INT_MAX) (hgas : len < gas) :
    ∀ (its : List CStr) (i : Nat) (pre rest : List Char) (more : List CStr) (fuel : Nat),
    array.drop i = its ++ more → ((i + its.length : Nat) : Int) = n → its.length < fuel →
    len = pre.length + joinedLen its d →
    joinedLen its d ≤ rest.length →
    joinLoop32 array n d len gas fuel (i : Int) (filled32 pre rest).1 (filled32 pre rest).2
      = some (filled32 (pre ++ List.intercalate (cstr d) (its.map cstr))
          (rest.drop (joinedLen its d))) := by
  intro its
  induction its with
  | nil =>
    intro i pre rest more fuel _ hi hfuel _ _
    obtain ⟨fuel, rfl⟩ : ∃ f, fuel = f + 1 := ⟨fuel - 1, by omega⟩
    have hlt : ¬ (i : Int) < n := by simp at hi; omega
    simp [joinLoop32, hlt, List.intercalate, joinedLen]
  | cons s ts ih =>
    intro i pre rest more fuel h hi hfuel hlen' hfit
    obtain ⟨fuel, rfl⟩ : ∃ f, fuel = f + 1 := ⟨fuel - 1, by omega⟩
    obtain ⟨h1, h2⟩ := drop_eq_cons h
    simp only [List.length_cons] at hi hfuel
    have hlt : (i : Int) < n := by omega
    have hi1 : wrapInt ((i : Int) + 1) = ((i + 1 : Nat) : Int) := by
      rw [wrapInt_eq _ (by omega) (by omega)]; simp
    have hJ := length_intercalate d (s :: ts)
    rw [List.map_cons, intercalate_cons] at hJ ⊢
    have hT := length_sepTail d ts
    simp only [List.length_append, length_cstr] at hJ
    have hs : strlen s ≤ rest.length := by omega
    have hcopy := copyChars32_filled s gas pre rest hs (by omega) (by omega)
    simp only [joinLoop32, hlt, if_true, elemInt_natCast, h1, hcopy, hi1]
    have hsize : toSize (filled32 (pre ++ cstr s) (rest.drop (strlen s))).2
        = (filled (pre ++ cstr s) (rest.drop (strlen s))).2 := by
      apply toSize_eq
      simp only [filled, List.length_append, length_cstr]
      omega
    rw [hsize]
    by_cases hk : (filled (pre ++ cstr s) (rest.drop (strlen s))).2 = len
    · have h0 : (sepTail (cstr d) (ts.map cstr)).length = 0 := by
        simp only [filled, List.length_append, length_cstr] at hk
        omega
      have hnil : sepTail (cstr d) (ts.map cstr) = [] := List.length_eq_zero.mp h0
      have hj : joinedLen (s :: ts) d = strlen s := by rw [← hJ, h0]; rfl
      simp only [hk, if_true, hnil, hj, List.append_nil]
    · simp only [hk, if_false]
      cases ts with
      | nil =>
        exfalso
        apply hk
        simp only [filled, List.length_append, length_cstr]
        simp [joinedLen] at hlen'
        omega
      | cons t ts =>
        have hj : joinedLen (s :: t :: ts) d = strlen s + strlen d + joinedLen (t :: ts) d := by
          simp only [joinedLen, List.map_cons, List.sum_cons, List.length_cons,
            Nat.add_sub_cancel, Nat.add_mul, Nat.one_mul]
          omega
        have hd : strlen d ≤ (rest.drop (strlen s)).length := by
          simp only [List.length_drop]; omega
        rw [copyChars32_filled d gas _ _ hd (by omega)
          (by simp only [List.length_append, length_cstr]; omega)]
        have := ih (i + 1) (pre ++ cstr s ++ cstr d) ((rest.drop (strlen s)).drop (strlen d)) more
          fuel h2 (by simp only [List.length_cons] at hi ⊢; omega)
          (by simp only [List.length_cons] at hfuel ⊢; omega)
          (by simp only [List.length_append, length_cstr]; omega)
          (by simp only [List.length_drop]; omega)
        simp only [List.drop_drop, List.append_assoc, List.map_cons, intercalate_cons] at this
        simp only [List.drop_drop, List.append_assoc, List.map_cons, sepTail, hj, this]

/-- While the result length fits an `int`, the machine fill loop of `repeat` does
what the loop on mathematical integers does. -/
theorem fillLoop32_filled (str : CStr) (res_len : Nat) (hres : (res_len : Int) ≤ INT_MAX) :
    ∀ (rem : Nat) (pre rest : List Char) (fuel : Nat),
    rem ≤ rest.length → (rem = 0 ∨ 0 < strlen str) → pre.length + rem = res_len →
    rem < fuel →
    fillLoop32 str (strlen str) res_len fuel (filled32 pre rest).2 (filled32 pre rest).1
      = some (filled32 (pre ++ (List.range' pre.length rem).map (cycleChar str))
          (rest.drop rem)) := by
  intro rem
  induction rem with
  | zero =>
    intro pre rest fuel _ _ hi hfuel
    obtain ⟨fuel, rfl⟩ : ∃ f, fuel = f + 1 := ⟨fuel - 1, by omega⟩
    have hsize : toSize (filled32 pre rest).2 = pre.length := toSize_eq pre.length (by omega)
    simp [fillLoop32, hsize, ← hi]
  | succ rem ih =>
    intro pre rest fuel hfit hpos hi hfuel
    obtain ⟨fuel, rfl⟩ : ∃ f, fuel = f + 1 := ⟨fuel - 1, by omega⟩
    have hpos : 0 < strlen str := by omega
    have hne : ¬ strlen str = 0 := by omega
    cases rest with
    | nil => simp at hfit
    | cons x rest =>
      have hfit1 : rem ≤ rest.length := by simpa using hfit
      have hsize : toSize (filled32 pre (x :: rest)).2 = pre.length :=
        toSize_eq pre.length (by omega)
      have hlt : pre.length < res_len := by omega
      have hw : (filled32 pre (x :: rest)).1.writeInt (filled32 pre (x :: rest)).2
          (cycleChar str pre.length) = some (filled32 (pre ++ [cycleChar str pre.length]) rest).1 := by
        have := write_filled pre x rest (cycleChar str pre.length)
        simp only [filled32, writeInt_natCast]
        exact this
      have hi1 : wrapInt ((filled32 pre (x :: rest)).2 + 1)
          = (filled32 (pre ++ [cycleChar str pre.length]) rest).2 := by
        have h2 : (filled32 pre (x :: rest)).2 = (pre.length : Int) := rfl
        rw [h2, wrapInt_eq _ (by omega) (by omega)]
        simp [filled32, filled]
      rw [fillLoop32]
      simp only [hsize, hlt, if_true, hne, if_false]
      rw [at_mod_strlen str _ hpos]
      simp only []
      rw [hw]
      simp only []
      rw [hi1, ih _ _ fuel hfit1 (Or.inr hpos) (by simp; omega) (by omega)]
      simp [List.range'_succ, filled]

/-- A run of the machine-integer `repeat` whose result length fits an `int`. -/
theorem repeat32_run (gas : Nat) (heap : Heap) (hok : heap.ok = true) (m : Nat) (str : CStr)
    (h1 : 1 < m) (hm : (m : Int) ≤ INT_MAX)
    (hmax : ((strlen str * m : Nat) : Int) ≤ INT_MAX) (hgas : strlen str * m < gas) :
    ∃ block res fin,
      wrapSize (strlen str * toSize (m : Int)) = strlen str * m
      ∧ my_malloc heap (wrapSize (strlen str * m + 1)) "string repetition" = .ok block
      ∧ block.length = strlen str * m + 1
      ∧ fillLoop32 str (strlen str) (strlen str * m) gas 0 ⟨block, []⟩
          = some (res, ((strlen str * m : Nat) : Int))
      ∧ res.log = (List.range (strlen str * m)).reverse
      ∧ (∀ i ∈ res.log, i < strlen str * m)
      ∧ res.writeInt ((strlen str * m : Nat) : Int) NUL = some fin
      ∧ fin.log = (strlen str * m) :: res.log
      ∧ repeat32 gas heap (m : Int) str = .ptr fin.cells
      ∧ «repeat» heap (m : Int) str = .ptr fin.cells := by
  have hsz : toSize (m : Int) = m := toSize_eq m hm
  have hprod : wrapSize (strlen str * toSize (m : Int)) = strlen str * m := by
    rw [hsz]; exact wrapSize_eq _ (by omega)
  have hsize : wrapSize (strlen str * m + 1) = strlen str * m + 1 :=
    wrapSize_eq _ (by omega)
  have hblock : ((List.range (strlen str * m + 1)).map heap.junk).length
      = strlen str * m + 1 := by simp
  have hpos : strlen str * m = 0 ∨ 0 < strlen str := by
    rcases Nat.eq_zero_or_pos (strlen str) with h | h
    · left; simp [h]
    · right; exact h
  have hloop := fillLoop32_filled str (strlen str * m) hmax (strlen str * m) []
    ((List.range (strlen str * m + 1)).map heap.junk) gas (by omega) hpos (by simp) hgas
  have h0 : ∀ b, filled32 [] b = (⟨b, []⟩, 0) := fun _ => rfl
  rw [h0] at hloop
  obtain ⟨x, hx⟩ := exists_cons_of_length_succ _ _ hblock
  rw [hx, List.nil_append, List.length_nil, ← List.range_eq_range'] at hloop
  have hJ : ((List.range (strlen str * m)).map (cycleChar str)).length = strlen str * m := by
    simp
  have hfin := filled_terminated _ x _ hJ
  have hk : (filled32 ((List.range (strlen str * m)).map (cycleChar str)) [x])
      = ((filled ((List.range (strlen str * m)).map (cycleChar str)) [x]).1,
          ((strlen str * m : Nat) : Int)) := by
    simp only [filled32, hfin.2.2.2.2.2.2.2]
  rw [hk] at hloop
  have hwrite : (filled ((List.range (strlen str * m)).map (cycleChar str)) [x]).1.writeInt
      ((strlen str * m : Nat) : Int) NUL
      = some (filled ((List.range (strlen str * m)).map (cycleChar str) ++ [NUL]) []).1 := by
    rw [writeInt_natCast]; exact hfin.2.2.2.1
  have c0 : ¬ (m : Int) < 0 := by omega
  have c1 : ¬ (m : Int) = 0 := by omega
  have c2 : ¬ (m : Int) = 1 := by omega
  refine ⟨_, _, _, hprod, ?_, hblock, hloop, hfin.2.1, hfin.1, hwrite, hfin.2.2.2.2.1, ?_, ?_⟩
  · rw [hsize]; exact my_malloc_ok heap hok _ _
  · simp only [repeat32, c0, c1, c2, if_false, hprod, hsize, my_malloc_ok heap hok, hloop,
      hwrite]
  · rw [repeat_of_two_le heap (m : Int) str hok (by omega), Int.toNat_ofNat,
      hfin.2.2.2.2.2.2.1]

/-- A run of the machine-integer `concat_array` whose output length fits an `int`. -/
theorem concat_array32_run (gas : Nat) (heap : Heap) (hok : heap.ok = true)
    (array : List CStr) (m : Nat) (d : CStr)
    (h2 : 2 ≤ m) (hm : (m : Int) ≤ INT_MAX) (hn : m ≤ array.length)
    (hmax : (joinedLen (array.take m) d : Int) ≤ INT_MAX)
    (hgas : m < gas) (hgas2 : joinedLen (array.take m) d < gas) :
    ∃ block res fin,
      sumLens32 array (m : Int) gas 0 (wrapSize (strlen d * toSize (wrapInt ((m : Int) - 1))))
        = some (joinedLen (array.take m) d)
      ∧ my_malloc heap (wrapSize (joinedLen (array.take m) d + 1)) "string concatenation"
        = .ok block
      ∧ block.length = joinedLen (array.take m) d + 1
      ∧ joinLoop32 array (m : Int) d (joinedLen (array.take m) d) gas gas 0 ⟨block, []⟩ 0
        = some (res, (joinedLen (array.take m) d : Int))
      ∧ res.log = (List.range (joinedLen (array.take m) d)).reverse
      ∧ (∀ k ∈ res.log, k < joinedLen (array.take m) d)
      ∧ res.writeInt (joinedLen (array.take m) d : Int) NUL = some fin
      ∧ fin.log = joinedLen (array.take m) d :: res.log
      ∧ concat_array32 gas heap array (m : Int) d = .ptr fin.cells
      ∧ concat_array heap array (m : Int) d = .ptr fin.cells := by
  have hl : (array.take m).length = m := by simp [hn]
  have hlen0 : strlen d * (m - 1) + ((array.take m).map strlen).sum
      = joinedLen (array.take m) d := by
    simp only [joinedLen, hl, Nat.mul_comm]; omega
  have hw1 : wrapInt ((m : Int) - 1) = ((m - 1 : Nat) : Int) := by
    rw [wrapInt_eq _ (by omega) (by omega)]; omega
  have hd0 : wrapSize (strlen d * toSize (wrapInt ((m : Int) - 1))) = strlen d * (m - 1) := by
    rw [hw1, toSize_eq _ (by omega)]
    exact wrapSize_eq _ (by omega)
  have hsum := sumLens32_eq array (m : Int) hm (array.take m) 0 (strlen d * (m - 1))
    (array.drop m) gas (by simp) (by rw [hl]; simp) (by rw [hl]; exact hgas)
    (by rw [hlen0]; exact hmax)
  rw [hlen0] at hsum
  simp only [Nat.cast_zero] at hsum
  have hsize : wrapSize (joinedLen (array.take m) d + 1) = joinedLen (array.take m) d + 1 :=
    wrapSize_eq _ (by omega)
  have hblock : ((List.range (joinedLen (array.take m) d + 1)).map heap.junk).length
      = joinedLen (array.take m) d + 1 := by simp
  have hloop := joinLoop32_filled array (m : Int) d (joinedLen (array.take m) d) gas hm hmax
    hgas2 (array.take m) 0 [] ((List.range (joinedLen (array.take m) d + 1)).map heap.junk)
    (array.drop m) gas (by simp) (by rw [hl]; simp) (by rw [hl]; exact hgas) (by simp)
    (by omega)
  have h0 : ∀ b, filled32 [] b = (⟨b, []⟩, 0) := fun _ => rfl
  rw [h0] at hloop
  obtain ⟨x, hx⟩ := exists_cons_of_length_succ _ _ hblock
  rw [hx, List.nil_append] at hloop
  simp only [Nat.cast_zero] at hloop
  have hJ := length_intercalate d (array.take m)
  have hfin := filled_terminated _ x _ hJ
  have hk : (filled32 (List.intercalate (cstr d) ((array.take m).map cstr)) [x])
      = ((filled (List.intercalate (cstr d) ((array.take m).map cstr)) [x]).1,
          (joinedLen (array.take m) d : Int)) := by
    simp only [filled32, hfin.2.2.2.2.2.2.2]
  rw [hk] at hloop
  have hwrite : (filled (List.intercalate (cstr d) ((array.take m).map cstr)) [x]).1.writeInt
      (joinedLen (array.take m) d : Int) NUL
      = some (filled (List.intercalate (cstr d) ((array.take m).map cstr) ++ [NUL]) []).1 := by
    rw [writeInt_natCast]; exact hfin.2.2.2.1
  have c0 : ¬ (m : Int) < 0 := by omega
  have c1 : ¬ (m : Int) = 0 := by omega
  have c2 : ¬ (m : Int) = 1 := by omega
  refine ⟨_, _, _, ?_, ?_, hblock, hloop, hfin.2.1, hfin.1, hwrite, hfin.2.2.2.2.1, ?_, ?_⟩
  · rw [hd0]; exact hsum
  · rw [hsize]; exact my_malloc_ok heap hok _ _
  · simp only [concat_array32, c0, c1, c2, if_false, hd0, hsum, hsize, my_malloc_ok heap hok,
      hloop, hwrite]
  · rw [concat_array_of_two_le heap array (m : Int) d hok (by omega) (by omega),
      Int.toNat_ofNat, hfin.2.2.2.2.2.2.1]

/-! ## The machine-integer functions inside the `int` range -/

/-- While `n` copies of `str` fit an `int`, the machine-integer `repeat` returns what
the function on mathematical integers returns. -/
theorem repeat32_eq_repeat (gas : Nat) (heap : Heap) (n : Int) (str : CStr)
    (hok : heap.ok = true) (hn : n ≤ INT_MAX)
    (hfit : 2 ≤ n → n * strlen str ≤ INT_MAX) (hgas : 2 ≤ n → n * strlen str < gas) :
    repeat32 gas heap n str = «repeat» heap n str := by
  by_cases c0 : n < 0
  · simp [repeat32, «repeat», c0]
  by_cases c1 : n = 0
  · simp [repeat32, «repeat», c1]
  by_cases c2 : n = 1
  · simp [repeat32, «repeat», c2]
  have h2 : 2 ≤ n := by omega
  obtain ⟨m, rfl⟩ := Int.eq_ofNat_of_zero_le (show 0 ≤ n by omega)
  have hcast : ((strlen str * m : Nat) : Int) = (m : Int) * strlen str := by
    push_cast; exact Int.mul_comm _ _
  obtain ⟨_, _, fin, _, _, _, _, _, _, _, _, p9, p10⟩ :=
    repeat32_run gas heap hok m str (by omega) hn (by rw [hcast]; exact hfit h2)
      (by have := hgas h2; rw [← hcast] at this; exact_mod_cast this)
  rw [p9, p10]

/-- While the joined length fits an `int`, the machine-integer `concat_array` returns
what the function on mathematical integers returns. -/
theorem concat_array32_eq_concat_array (gas : Nat) (heap : Heap) (array : List CStr)
    (n : Int) (d : CStr) (hok : heap.ok = true) (hn : n ≤ INT_MAX)
    (hlen : n ≤ array.length)
    (hfit : 2 ≤ n → (joinedLen (array.take n.toNat) d : Int) ≤ INT_MAX)
    (hgas : 2 ≤ n → n < gas ∧ joinedLen (array.take n.toNat) d < gas) :
    concat_array32 gas heap array n d = concat_array heap array n d := by
  by_cases c0 : n < 0
  · simp [concat_array32, concat_array, c0]
  by_cases c1 : n = 0
  · simp [concat_array32, concat_array, c1]
  by_cases c2 : n = 1
  · simp [concat_array32, concat_array, c2]
  have h2 : 2 ≤ n := by omega
  obtain ⟨m, rfl⟩ := Int.eq_ofNat_of_zero_le (show 0 ≤ n by omega)
  have hf := hfit h2
  have hg := hgas h2
  simp only [Int.toNat_ofNat] at hf hg
  obtain ⟨_, _, fin, _, _, _, _, _, _, _, _, p9, p10⟩ :=
    concat_array32_run gas heap hok array m d (by omega) hn (by omega) hf (by omega) hg.2
  rw [p9, p10]

/-! ## The machine-integer functions beyond the `int` range -/

theorem wrapInt_range (x : Int) : -2147483648 ≤ wrapInt x ∧ wrapInt x ≤ INT_MAX := by
  simp only [wrapInt, INT_MAX]
  omega

theorem toSize_of_nonneg (x : Int) (h0 : 0 ≤ x) (h1 : x ≤ INT_MAX) :
    (toSize x : Int) = x := by
  simp only [toSize, INT_MAX] at *
  omega

theorem writeInt_neg (res : Buf) (k : Int) (c : Char) (h : k < 0) :
    res.writeInt k c = none := by
  simp [Buf.writeInt, Int.not_le.mpr h]

/-- When the fill loop of `repeat` ends, its index is an `int` that, converted to
`size_t`, is not below `res_len`. -/
theorem fillLoop32_exit (str : CStr) (src_len res_len : Nat) :
    ∀ (fuel : Nat) (i : Int) (res res1 : Buf) (i1 : Int),
    -2147483648 ≤ i → i ≤ INT_MAX →
    fillLoop32 str src_len res_len fuel i res = some (res1, i1) →
    -2147483648 ≤ i1 ∧ i1 ≤ INT_MAX ∧ ¬ toSize i1 < res_len := by
  intro fuel
  induction fuel with
  | zero => intro i res res1 i1 _ _ h; simp [fillLoop32] at h
  | succ fuel ih =>
    intro i res res1 i1 hlo hhi h
    rw [fillLoop32] at h
    by_cases ht : toSize i < res_len
    · simp only [ht, if_true] at h
      by_cases hs : src_len = 0
      · simp [hs] at h
      · simp only [hs, if_false] at h
        cases hc : str.at (toSize i % src_len) with
        | none => simp [hc] at h
        | some c =>
          simp only [hc] at h
          cases hw : res.writeInt i c with
          | none => simp [hw] at h
          | some res2 =>
            simp only [hw] at h
            exact ih _ _ _ _ (wrapInt_range _).1 (wrapInt_range _).2 h
    · simp only [ht, if_false, Option.some.injEq, Prod.mk.injEq] at h
      obtain ⟨_, rfl⟩ := h
      exact ⟨hlo, hhi, ht⟩

/-- Once `src_len * n` exceeds the largest `int`, the machine-integer `repeat` has
undefined behaviour, whatever the fuel: the loop can only end on a negative index,
where the terminator is then written. -/
theorem repeat32_overflow (gas : Nat) (heap : Heap) (n : Int) (str : CStr)
    (hok : heap.ok = true) (h2 : 2 ≤ n)
    (hbig : INT_MAX < (wrapSize (strlen str * toSize n) : Int)) :
    repeat32 gas heap n str = .undefined := by
  have c0 : ¬ n < 0 := by omega
  have c1 : ¬ n = 0 := by omega
  have c2 : ¬ n = 1 := by omega
  simp only [repeat32, c0, c1, c2, if_false, my_malloc_ok heap hok]
  cases hloop : fillLoop32 str (strlen str) (wrapSize (strlen str * toSize n)) gas 0
      ⟨(List.range (wrapSize (wrapSize (strlen str * toSize n) + 1))).map heap.junk, []⟩ with
  | none => rfl
  | some p =>
    obtain ⟨res1, i1⟩ := p
    obtain ⟨hlo, hhi, hex⟩ := fillLoop32_exit str _ _ gas 0 _ res1 i1 (by decide)
      (by decide) hloop
    have hneg : i1 < 0 := by
      by_contra hge
      have := toSize_of_nonneg i1 (by omega) hhi
      omega
    simp only [writeInt_neg res1 i1 NUL hneg]

theorem Buf.write_log (res res1 : Buf) (k : Nat) (c : Char) (h : res.write k c = some res1) :
    res1.log.length = res.log.length + 1 := by
  unfold Buf.write at h
  by_cases hk : k < res.cells.length
  · simp only [hk, if_true, Option.some.injEq] at h
    subst h
    simp
  · simp [hk] at h

theorem atInt_neg (s : CStr) (j : Int) (h : j < 0) : s.atInt j = none := by
  simp [CStr.atInt, Int.not_le.mpr h]

/-- A run of the machine copy loop that returns made one write per character of the
string, and its write index still tracks the buffer. -/
theorem copyChars32_count : ∀ (remaining done : List Char) (fuel : Nat) (res : Buf) (k : Int)
    (res1 : Buf) (k1 : Int),
    (done.length : Int) ≤ INT_MAX → Tracks res k →
    copyChars32 (done ++ remaining) fuel (done.length : Int) res k = some (res1, k1) →
    Tracks res1 k1 ∧ res1.log.length = res.log.length + strlen remaining := by
  intro remaining
  induction remaining with
  | nil =>
    intro done fuel res k res1 k1 _ htr h
    cases fuel with
    | zero => simp [copyChars32] at h
    | succ fuel =>
      have hat := at_length_append done []
      simp only [List.headD_nil] at hat
      simp only [copyChars32, atInt_natCast, hat, if_true, Option.some.injEq,
        Prod.mk.injEq] at h
      obtain ⟨rfl, rfl⟩ := h
      exact ⟨htr, by simp [strlen]⟩
  | cons c remaining ih =>
    intro done fuel res k res1 k1 hj htr h
    cases fuel with
    | zero => simp [copyChars32] at h
    | succ fuel =>
      have hat := at_length_append done (c :: remaining)
      simp only [List.headD_cons] at hat
      rw [copyChars32] at h
      simp only [atInt_natCast, hat] at h
      by_cases hc : c = NUL
      · simp only [hc, if_true, Option.some.injEq, Prod.mk.injEq] at h
        obtain ⟨rfl, rfl⟩ := h
        exact ⟨htr, by simp [strlen, hc]⟩
      · simp only [hc, if_false] at h
        by_cases hk : k < 0
        · simp [writeInt_neg res k c hk] at h
        · obtain ⟨hlo, hhi, hlog⟩ := htr
          have hkl := hlog (by omega)
          cases hw : res.writeInt k c with
          | none => simp [hw] at h
          | some res2 =>
            simp only [hw] at h
            have hw2 : res.write k.toNat c = some res2 := by
              simpa [Buf.writeInt, Int.not_lt.mp hk] using hw
            have hlen2 := Buf.write_log res res2 _ c hw2
            have htr2 : Tracks res2 (wrapInt (k + 1)) := by
              refine ⟨(wrapInt_range _).1, (wrapInt_range _).2, ?_⟩
              intro h0
              simp only [wrapInt, INT_MAX] at *
              omega
            by_cases hj1 : ((done.length : Int) + 1) ≤ INT_MAX
            · have hjw : wrapInt ((done.length : Int) + 1) = ((done ++ [c]).length : Nat) := by
                rw [wrapInt_eq _ (by omega) hj1]; simp
              rw [hjw] at h
              have hsrc : done ++ c :: remaining = (done ++ [c]) ++ remaining := by simp
              rw [hsrc] at h
              obtain ⟨t1, t2⟩ := ih (done ++ [c]) fuel res2 (wrapInt (k + 1)) res1 k1
                (by simp only [List.length_append, List.length_singleton]; push_cast; exact hj1)
                htr2 h
              refine ⟨t1, ?_⟩
              simp only [strlen, hc, if_false]
              omega
            · have hjneg : wrapInt ((done.length : Int) + 1) < 0 := by
                simp only [wrapInt, INT_MAX] at *
                omega
              cases fuel with
              | zero => simp [copyChars32] at h
              | succ fuel =>
                rw [copyChars32] at h
                simp [atInt_neg _ _ hjneg] at h

/-- A run of the machine main loop that returns either ended on `k == len` or made one
write per character of every element and of the delimiter after each of them. -/
theorem joinLoop32_count (array : List CStr) (n : Int) (d : CStr) (len gas : Nat)
    (hn : n ≤ INT_MAX) :
    ∀ (its : List CStr) (i : Nat) (more : List CStr) (fuel : Nat) (res : Buf) (k : Int)
      (res1 : Buf) (k1 : Int),
    array.drop i = its ++ more → ((i + its.length : Nat) : Int) = n → Tracks res k →
    joinLoop32 array n d len gas fuel (i : Int) res k = some (res1, k1) →
    Tracks res1 k1 ∧ (toSize k1 = len
      ∨ res1.log.length = res.log.length + (its.map strlen).sum + its.length * strlen d) := by
  intro its
  induction its with
  | nil =>
    intro i more fuel res k res1 k1 _ hi htr h
    cases fuel with
    | zero => simp [joinLoop32] at h
    | succ fuel =>
      have hlt : ¬ (i : Int) < n := by simp at hi; omega
      simp only [joinLoop32, hlt, if_false, Option.some.injEq, Prod.mk.injEq] at h
      obtain ⟨rfl, rfl⟩ := h
      exact ⟨htr, Or.inr (by simp)⟩
  | cons s ts ih =>
    intro i more fuel res k res1 k1 hdrop hi htr h
    cases fuel with
    | zero => simp [joinLoop32] at h
    | succ fuel =>
      obtain ⟨h1, h2⟩ := drop_eq_cons hdrop
      simp only [List.length_cons] at hi
      have hlt : (i : Int) < n := by omega
      have hi1 : wrapInt ((i : Int) + 1) = ((i + 1 : Nat) : Int) := by
        rw [wrapInt_eq _ (by omega) (by omega)]; simp
      rw [joinLoop32] at h
      simp only [hlt, if_true, elemInt_natCast, h1] at h
      cases hc1 : copyChars32 s gas 0 res k with
      | none => simp [hc1] at h
      | some p =>
        obtain ⟨res2, k2⟩ := p
        simp only [hc1] at h
        obtain ⟨htr2, hlog2⟩ := copyChars32_count s [] gas res k res2 k2 (by decide) htr
          (by simpa using hc1)
        by_cases hk : toSize k2 = len
        · simp only [hk, if_true, Option.some.injEq, Prod.mk.injEq] at h
          obtain ⟨rfl, rfl⟩ := h
          exact ⟨htr2, Or.inl hk⟩
        · simp only [hk, if_false] at h
          cases hc2 : copyChars32 d gas 0 res2 k2 with
          | none => simp [hc2] at h
          | some q =>
            obtain ⟨res3, k3⟩ := q
            simp only [hc2, hi1] at h
            obtain ⟨htr3, hlog3⟩ := copyChars32_count d [] gas res2 k2 res3 k3 (by decide)
              htr2 (by simpa using hc2)
            obtain ⟨t1, t2⟩ := ih (i + 1) more fuel res3 k3 res1 k1 h2
              (by push_cast at hi ⊢; omega) htr3 h
            refine ⟨t1, ?_⟩
            rcases t2 with t2 | t2
            · exact Or.inl t2
            · right
              simp only [List.map_cons, List.sum_cons, List.length_cons, Nat.add_mul,
                Nat.one_mul]
              omega

/-- While no sum wraps, a run of the machine length loop that returns has added up
the lengths. -/
theorem sumLens32_val (array : List CStr) (n : Int) (hn : n ≤ INT_MAX) :
    ∀ (its : List CStr) (i len0 : Nat) (more : List CStr) (fuel len1 : Nat),
    array.drop i = its ++ more → ((i + its.length : Nat) : Int) = n →
    len0 + (its.map strlen).sum < 18446744073709551616 →
    sumLens32 array n fuel (i : Int) len0 = some len1 →
    len1 = len0 + (its.map strlen).sum := by
  intro its
  induction its with
  | nil =>
    intro i len0 more fuel len1 _ hi _ h
    cases fuel with
    | zero => simp [sumLens32] at h
    | succ fuel =>
      have hlt : ¬ (i : Int) < n := by simp at hi; omega
      simp only [sumLens32, hlt, if_false, Option.some.injEq] at h
      simp [← h]
  | cons s ts ih =>
    intro i len0 more fuel len1 hdrop hi hsum h
    cases fuel with
    | zero => simp [sumLens32] at h
    | succ fuel =>
      obtain ⟨h1, h2⟩ := drop_eq_cons hdrop
      simp only [List.length_cons, List.map_cons, List.sum_cons] at hi hsum
      have hlt : (i : Int) < n := by omega
      have hi1 : wrapInt ((i : Int) + 1) = ((i + 1 : Nat) : Int) := by
        rw [wrapInt_eq _ (by omega) (by omega)]; simp
      have hw : wrapSize (len0 + strlen s) = len0 + strlen s := by
        simp only [wrapSize]; omega
      simp only [sumLens32, hlt, if_true, elemInt_natCast, h1, hi1, hw] at h
      have := ih (i + 1) (len0 + strlen s) more fuel len1 h2 (by push_cast at hi ⊢; omega)
        (by omega) h
      simp only [List.map_cons, List.sum_cons]
      omega

/-- Once the joined length exceeds the largest `int` (and fits a `size_t`), the
machine-integer `concat_array` has undefined behaviour, whatever the fuel: a run of
the loop that returns leaves a negative write index, where the terminator is then
written. -/
theorem concat_array32_overflow (gas : Nat) (heap : Heap) (array : List CStr) (n : Int)
    (d : CStr) (hok : heap.ok = true) (h2 : 2 ≤ n) (hn : n ≤ INT_MAX)
    (hlen : n ≤ array.length)
    (hbig : INT_MAX < (joinedLen (array.take n.toNat) d : Int))
    (hsize : joinedLen (array.take n.toNat) d < 18446744073709551616) :
    concat_array32 gas heap array n d = .undefined
      ∧ ∀ (block : List Char) (res : Buf) (k : Int),
          joinLoop32 array n d (joinedLen (array.take n.toNat) d) gas gas 0 ⟨block, []⟩ 0
            = some (res, k) → k < 0 := by
  obtain ⟨m, rfl⟩ := Int.eq_ofNat_of_zero_le (show 0 ≤ n by omega)
  simp only [Int.toNat_ofNat] at hbig hsize ⊢
  have hl : (array.take m).length = m := by
    simp only [List.length_take]; omega
  have hjl : joinedLen (array.take m) d
      = strlen d * (m - 1) + ((array.take m).map strlen).sum := by
    simp only [joinedLen, hl, Nat.mul_comm]; omega
  have hmul : strlen d * (m - 1) ≤ joinedLen (array.take m) d := by omega
  have hloopneg : ∀ (block : List Char) (res : Buf) (k : Int),
      joinLoop32 array (m : Int) d (joinedLen (array.take m) d) gas gas 0 ⟨block, []⟩ 0
        = some (res, k) → k < 0 := by
    intro block res k hloop
    have hcount := joinLoop32_count array (m : Int) d (joinedLen (array.take m) d) gas hn
      (array.take m) 0 (array.drop m) gas ⟨block, []⟩ 0 res k (by simp) (by rw [hl]; simp)
      ⟨by decide, by decide, fun _ => by simp⟩ (by simpa using hloop)
    obtain ⟨⟨hlo, hhi, hlog⟩, hor⟩ := hcount
    by_contra hge
    have hk := hlog (by omega)
    have hts := toSize_of_nonneg k (by omega) hhi
    rcases hor with h | h
    · omega
    · simp only [List.length_nil, Nat.zero_add, hl] at h
      have h3 : (m - 1) * strlen d ≤ m * strlen d := Nat.mul_le_mul_right _ (by omega)
      simp only [joinedLen, hl] at hbig
      omega
  refine ⟨?_, hloopneg⟩
  have c0 : ¬ (m : Int) < 0 := by omega
  have c1 : ¬ (m : Int) = 0 := by omega
  have c2 : ¬ (m : Int) = 1 := by omega
  have hw1 : wrapInt ((m : Int) - 1) = ((m - 1 : Nat) : Int) := by
    rw [wrapInt_eq _ (by omega) (by omega)]; omega
  have hd0 : wrapSize (strlen d * toSize (wrapInt ((m : Int) - 1))) = strlen d * (m - 1) := by
    rw [hw1, toSize_eq _ (by omega)]
    simp only [wrapSize]; omega
  simp only [concat_array32, c0, c1, c2, if_false, hd0]
  cases hsum : sumLens32 array (m : Int) gas 0 (strlen d * (m - 1)) with
  | none => rfl
  | some len1 =>
    have hval := sumLens32_val array (m : Int) hn (array.take m) 0 (strlen d * (m - 1))
      (array.drop m) gas len1 (by simp) (by rw [hl]; simp) (by omega) (by simpa using hsum)
    rw [← hjl] at hval
    subst hval
    simp only [my_malloc_ok heap hok]
    cases hloop : joinLoop32 array (m : Int) d (joinedLen (array.take m) d) gas gas 0
        ⟨(List.range (wrapSize (joinedLen (array.take m) d + 1))).map heap.junk, []⟩ 0 with
    | none => rfl
    | some p =>
      obtain ⟨res1, k1⟩ := p
      have hneg := hloopneg _ res1 k1 hloop
      simp only [writeInt_neg res1 k1 NUL hneg]

theorem strlen_replicate (m : Nat) (c : Char) (hc : c ≠ NUL) :
    strlen (List.replicate m c) = m := by
  induction m with
  | zero => rfl
  | succ m ih => simp [List.replicate_succ, strlen, hc, ih]

theorem strlen_bigString : strlen bigString = 1073741824 :=
  strlen_replicate 1073741824 _ (by decide)

/-- Two copies of `bigString` do not fit an `int`: `repeat` has undefined behaviour. -/
theorem repeat32_bigString (gas : Nat) : repeat32 gas heapOk 2 bigString = .undefined := by
  apply repeat32_overflow gas heapOk 2 bigString rfl (by decide)
  rw [strlen_bigString]
  decide

theorem joinedLen_pair (a b d : CStr) : joinedLen [a, b] d = strlen a + strlen b + strlen d := by
  simp [joinedLen, Nat.add_assoc]

theorem joinedLen_bigString : joinedLen [bigString, bigString] [] = 2147483648 := by
  have hs : strlen ([] : CStr) = 0 := rfl
  rw [joinedLen_pair, strlen_bigString, hs]

/-- Two elements `bigString` do not fit an `int`: `concat_array` has undefined
behaviour. -/
theorem concat_array32_bigString (gas : Nat) :
    concat_array32 gas heapOk [bigString, bigString] 2 [] = .undefined
      ∧ ∀ (block : List Char) (res : Buf) (k : Int),
          joinLoop32 [bigString, bigString] 2 [] 2147483648 gas gas 0 ⟨block, []⟩ 0
            = some (res, k) → k < 0 := by
  have hj : joinedLen ([bigString, bigString].take (2 : Int).toNat) [] = 2147483648 :=
    joinedLen_bigString
  have h := concat_array32_overflow gas heapOk [bigString, bigString] 2 [] rfl (by decide)
    (by decide) (by decide) (by rw [hj]; decide) (by rw [hj]; decide)
  rw [hj] at h
  exact h

/-! ## Reference facts on mathematical integers -/

/-- On mathematical integers, the length of `repeat(n, str)`. -/
theorem repeat_strlen_ideal (heap : Heap) (n : Int) (str : CStr)
    (hok : heap.ok = true) (h0 : 0 ≤ n) :
    ∃ s, «repeat» heap n str = .ptr s ∧ (strlen s : Int) = n * strlen str
      ∧ cstr s = (List.replicate n.toNat (cstr str)).flatten := by
  obtain ⟨s, hs, hc⟩ := repeat_ptr heap n str hok h0
  refine ⟨s, hs, ?_, hc⟩
  rw [← length_cstr s, hc]
  simp only [List.length_flatten, List.map_replicate, List.sum_replicate, length_cstr,
    smul_eq_mul, Nat.cast_mul, Int.toNat_of_nonneg h0]

/-- On mathematical integers, the character at position `i` of `repeat(n, str)`. -/
theorem repeat_at_ideal (heap : Heap) (n : Int) (str : CStr) (i : Nat)
    (hok : heap.ok = true) (h1 : 1 ≤ n) (hs : 0 < strlen str)
    (hi : (i : Int) < n * strlen str) :
    ∃ s c, «repeat» heap n str = .ptr s ∧ s.at i = some c
      ∧ str.at (i % strlen str) = some c := by
  rcases Int.lt_or_le n 2 with h | h
  · have hn : n = 1 := by omega
    subst hn
    have hi' : i < strlen str := by omega
    refine ⟨str, cycleChar str i, by simp [«repeat»], ?_, at_mod_strlen str i hs⟩
    rw [← at_mod_strlen str i hs, Nat.mod_eq_of_lt hi']
  · have hi' : i < strlen str * n.toNat := by
      have : (n.toNat : Int) = n := Int.toNat_of_nonneg (by omega)
      rw [← this] at hi
      rw [Nat.mul_comm]
      exact_mod_cast hi
    refine ⟨_, cycleChar str i, repeat_of_two_le heap n str hok h, ?_, at_mod_strlen str i hs⟩
    have hlen : i < ((List.range (strlen str * n.toNat)).map (cycleChar str) ++ [NUL]).length := by
      simp; omega
    simp only [CStr.at, hlen, if_true]
    rw [List.getElem?_append_left (by simpa using hi')]
    simp [List.getElem?_range hi']

/-- On mathematical integers, `concat_array` on `n` copies of `str` with the empty
delimiter returns what `repeat(n, str)` returns. -/
theorem concat_array_replicate_ideal (heap : Heap) (n : Int) (str : CStr)
    (hok : heap.ok = true) (h0 : 0 ≤ n) :
    ∃ s, concat_array heap (List.replicate n.toNat str) n [] = .ptr s
      ∧ «repeat» heap n str = .ptr s
      ∧ cstr s = (List.replicate n.toNat (cstr str)).flatten := by
  obtain ⟨s, hs, hc⟩ := repeat_ptr heap n str hok h0
  refine ⟨s, ?_, hs, hc⟩
  rw [← hs]
  obtain ⟨k, rfl⟩ := Int.eq_ofNat_of_zero_le h0
  simp only [Int.toNat_ofNat]
  match k with
  | 0 => simp [concat_array, «repeat»]
  | 1 => simp [concat_array, «repeat»]
  | k + 2 =>
    rw [concat_array_of_two_le heap _ _ [] hok (by omega) (by simp),
      (repeat_cases heap (k + 2) str hok).2.2 (by omega), Int.toNat_ofNat]
    have ht : (List.replicate (k + 2) str).take (k + 2) = List.replicate (k + 2) str := by
      rw [List.take_of_length_le (by simp)]
    have hnil : cstr ([] : CStr) = [] := rfl
    rw [ht, hnil, intercalate_nil, List.map_replicate]

/-- On mathematical integers, `repeat(m, repeat(n, str))` returns what
`repeat(m × n, str)` returns. -/
theorem repeat_repeat_ideal (heap : Heap) (m n : Int) (str : CStr)
    (hok : heap.ok = true) (hm : 0 ≤ m) (hn : 0 ≤ n) :
    ∃ r s, «repeat» heap n str = .ptr r ∧ «repeat» heap m r = .ptr s
      ∧ «repeat» heap (m * n) str = .ptr s
      ∧ cstr s = (List.replicate (m * n).toNat (cstr str)).flatten
      ∧ (strlen r : Int) = n * strlen str := by
  obtain ⟨r, hr, hlr, hcr⟩ := repeat_strlen_ideal heap n str hok hn
  obtain ⟨s, hs, hcs⟩ := repeat_ptr heap (m * n) str hok (Int.mul_nonneg hm hn)
  refine ⟨r, s, hr, ?_, hs, hcs, hlr⟩
  rw [← hs]
  obtain ⟨a, rfl⟩ := Int.eq_ofNat_of_zero_le hm
  obtain ⟨b, rfl⟩ := Int.eq_ofNat_of_zero_le hn
  have hmul : ((a : Int) * (b : Int)) = ((a * b : Nat) : Int) := by push_cast; rfl
  rw [hmul]
  rw [Int.toNat_ofNat] at hcr
  obtain ⟨ha0, ha1, ha2⟩ := repeat_cases heap a r hok
  obtain ⟨hb0, hb1, hb2⟩ := repeat_cases heap b str hok
  obtain ⟨hp0, hp1, hp2⟩ := repeat_cases heap (a * b) str hok
  rcases Nat.lt_or_ge a 2 with h | h
  · rcases Nat.lt_or_ge a 1 with h' | h'
    · have : a = 0 := by omega
      subst this
      rw [ha0 rfl, Nat.zero_mul, (repeat_cases heap 0 str hok).1 rfl]
    · have : a = 1 := by omega
      subst this
      rw [ha1 rfl, Nat.one_mul, hr]
  · rw [ha2 h, hcr, flatten_replicate_flatten]
    rcases Nat.lt_or_ge b 2 with hb | hb
    · rcases Nat.lt_or_ge b 1 with hb' | hb'
      · have : b = 0 := by omega
        subst this
        rw [Nat.mul_zero, (repeat_cases heap 0 str hok).1 rfl]
        simp
      · have : b = 1 := by omega
        subst this
        rw [Nat.mul_one, (repeat_cases heap a str hok).2.2 h]
    · have hab : 2 ≤ a * b := by nlinarith
      rw [hp2 hab]

theorem joinedLen_replicate (m : Nat) (str : CStr) :
    joinedLen ((List.replicate m str).take m) [] = m * strlen str := by
  have hs : strlen ([] : CStr) = 0 := rfl
  rw [List.take_of_length_le (by simp)]
  simp [joinedLen, List.map_replicate, List.sum_replicate, hs]

theorem joinedLen_cast (array : List CStr) (n : Int) (d : CStr) (h1 : 1 ≤ n)
    (hn : n ≤ array.length) :
    (joinedLen (array.take n.toNat) d : Int)
      = ((array.take n.toNat).map strlen).sum + (n - 1) * strlen d := by
  have hl : (array.take n.toNat).length = n.toNat := by
    simp only [List.length_take]; omega
  have h2 : ((n.toNat - 1 : Nat) : Int) = n - 1 := by omega
  simp only [joinedLen, hl, Nat.cast_add, Nat.cast_mul, h2]

/-! ## Reading the JSON text back -/

theorem hexValue_hexDigit (n : Nat) (h : n < 16) : hexValue (hexDigit n) = some n := by
  interval_cases n <;> decide

theorem parseStrBody_quote (rest : List Char) :
    parseStrBody (QUOTE :: rest) = some ([], rest) := by
  rw [parseStrBody.eq_def]; simp

theorem parseStrBody_escaped (e : Char) (rest : List Char) (he : e = QUOTE ∨ e = BACKSLASH) :
    parseStrBody (BACKSLASH :: e :: rest)
      = (parseStrBody rest).map (fun p => (e :: p.1, p.2)) := by
  have hbq : BACKSLASH ≠ QUOTE := by decide
  rw [parseStrBody.eq_def]; simp [hbq, he]

theorem parseStrBody_hex (a b : Char) (x y : Nat) (rest : List Char)
    (ha : hexValue a = some x) (hb : hexValue b = some y) :
    parseStrBody (BACKSLASH :: 'u' :: '0' :: '0' :: a :: b :: rest)
      = (parseStrBody rest).map (fun p => (Char.ofNat (16 * x + y) :: p.1, p.2)) := by
  have hbq : BACKSLASH ≠ QUOTE := by decide
  have huq : ¬ ('u' = QUOTE ∨ 'u' = BACKSLASH) := by decide
  rw [parseStrBody.eq_def]; simp [hbq, huq, ha, hb]

theorem parseStrBody_plain (c : Char) (rest : List Char) (h1 : c ≠ QUOTE)
    (h2 : c ≠ BACKSLASH) (h3 : ¬ c.toNat < 32) :
    parseStrBody (c :: rest) = (parseStrBody rest).map (fun p => (c :: p.1, p.2)) := by
  rw [parseStrBody.eq_def]; simp [h1, h2, h3]

theorem parseStrBody_escape (s rest : List Char) :
    parseStrBody (escape s ++ QUOTE :: rest) = some (s, rest) := by
  induction s with
  | nil => simp [escape, parseStrBody_quote]
  | cons c s ih =>
    by_cases h1 : c = QUOTE
    · subst h1
      simp [escape, escapeChar, parseStrBody_escaped, ih]
    · by_cases h2 : c = BACKSLASH
      · subst h2
        simp [escape, escapeChar, h1, parseStrBody_escaped, ih]
      · by_cases h3 : c.toNat < 32
        · have hd : c.toNat / 16 < 16 := by omega
          have hm : c.toNat % 16 < 16 := by omega
          have hc : Char.ofNat (16 * (c.toNat / 16) + c.toNat % 16) = c := by
            rw [Nat.div_add_mod, Char.ofNat_toNat]
          simp [escape, escapeChar, h1, h2, h3,
            parseStrBody_hex _ _ _ _ _ (hexValue_hexDigit _ hd) (hexValue_hexDigit _ hm),
            ih, hc]
        · simp [escape, escapeChar, h1, h2, h3, parseStrBody_plain c _ h1 h2 h3, ih]

theorem parseString_quoted (s rest : List Char) :
    parseString (quoted s ++ rest) = some (s, rest) := by
  simp [quoted, parseString, parseStrBody_escape]

theorem expect_append (lit rest : List Char) : expect lit (lit ++ rest) = some rest := by
  simp [expect]

/-- An input that differs from the literal at some position does not start with
it. -/
theorem expect_mismatch (lit m rest : List Char) (k : Nat) (a b : Char)
    (ha : lit[k]? = some a) (hb : m[k]? = some b) (hab : a ≠ b) :
    expect lit (m ++ rest) = none := by
  have hnot : ¬ lit <+: m ++ rest := by
    rintro ⟨t, ht⟩
    have hk1 : k < lit.length := by
      by_contra h
      rw [List.getElem?_eq_none (by omega)] at ha
      exact Option.noConfusion ha
    have hk2 : k < m.length := by
      by_contra h
      rw [List.getElem?_eq_none (by omega)] at hb
      exact Option.noConfusion hb
    have h1 : (lit ++ t)[k]? = some a := by rw [List.getElem?_append_left hk1]; exact ha
    have h2 : (m ++ rest)[k]? = some b := by rw [List.getElem?_append_left hk2]; exact hb
    rw [ht, h2] at h1
    exact hab (Option.some.inj h1).symm
  simp [expect, hnot]


theorem expect_payload_brace (rest : List Char) :
    expect ",\"payload\":".toList ("\x7d".toList ++ rest) = none :=
  expect_mismatch _ _ rest 0 ',' (Char.ofNat 125) (by decide) (by decide) (by decide)

theorem expect_payload_children (rest : List Char) :
    expect ",\"payload\":".toList (",\"children\":[".toList ++ rest) = none :=
  expect_mismatch _ _ rest 2 'p' 'c' (by decide) (by decide) (by decide)

theorem expect_children_brace (rest : List Char) :
    expect ",\"children\":[".toList ("\x7d".toList ++ rest) = none :=
  expect_mismatch _ _ rest 0 ',' (Char.ofNat 125) (by decide) (by decide) (by decide)

theorem expect_bracket_comma (rest : List Char) :
    expect "]".toList (",".toList ++ rest) = none :=
  expect_mismatch _ _ rest 0 ']' ',' (by decide) (by decide) (by decide)

/-- The optional payload field is read back, whatever follows it in the object. -/
theorem parsePayload_none (tail : List Char)
    (h : expect ",\"payload\":".toList tail = none) :
    parsePayload tail = some (none, tail) := by
  simp only [parsePayload, h]

theorem parsePayload_some (p tail : List Char) :
    parsePayload (",\"payload\":".toList ++ (quoted p ++ tail)) = some (some p, tail) := by
  simp only [parsePayload, expect_append, parseString_quoted]

mutual
/-- Reading the JSON text of a node back yields the node (the contents of its
strings), and leaves what followed the text. -/
theorem parseNode_jsonText : ∀ (t : AstNode) (rest : List Char) (fuel : Nat),
    fuelNeeded t ≤ fuel → parseNode fuel (jsonText t ++ rest) = some (t.contents, rest)
  | .node kind payload children, rest, fuel, hfuel => by
    obtain ⟨f, rfl⟩ : ∃ f, fuel = f + 1 := ⟨fuel - 1, by simp only [fuelNeeded] at hfuel; omega⟩
    simp only [fuelNeeded] at hfuel
    cases children with
    | nil =>
      have hp : parsePayload (payloadText payload ++ ("\x7d".toList ++ rest))
          = some (payload.map cstr, "\x7d".toList ++ rest) := by
        cases payload with
        | none => exact parsePayload_none _ (expect_payload_brace rest)
        | some p => exact parsePayload_some (cstr p) ("\x7d".toList ++ rest)
      simp only [jsonText, List.append_assoc, List.append_nil, parseNode, expect_append,
        parseString_quoted, List.nil_append, hp, expect_children_brace,
        AstNode.contents, contentsList]
    | cons child more =>
      have hp : parsePayload (payloadText payload
            ++ (",\"children\":[".toList ++ (jsonText child ++ (jsonTextTail more
              ++ ("]".toList ++ ("\x7d".toList ++ rest))))))
          = some (payload.map cstr, ",\"children\":[".toList ++ (jsonText child
              ++ (jsonTextTail more ++ ("]".toList ++ ("\x7d".toList ++ rest))))) := by
        cases payload with
        | none => exact parsePayload_none _ (expect_payload_children _)
        | some p => exact parsePayload_some (cstr p) _
      have hc := parseChildren_jsonText (child :: more) ("\x7d".toList ++ rest) f
        (by omega)
      simp only [List.append_assoc] at hc
      simp only [jsonText, List.append_assoc, parseNode, expect_append,
        parseString_quoted, hp, hc, AstNode.contents]
/-- Reading the elements of a non-empty array back yields the nodes in order. -/
theorem parseChildren_jsonText : ∀ (l : List AstNode) (rest : List Char) (fuel : Nat),
    fuelNeededList l ≤ fuel →
    match l with
    | [] => True
    | child :: more =>
      parseChildren fuel (jsonText child ++ jsonTextTail more ++ "]".toList ++ rest)
        = some (contentsList (child :: more), rest)
  | [], _, _, _ => trivial
  | child :: more, rest, fuel, hfuel => by
    obtain ⟨f, rfl⟩ : ∃ f, fuel = f + 1 :=
      ⟨fuel - 1, by simp only [fuelNeededList] at hfuel; omega⟩
    simp only [fuelNeededList] at hfuel
    have hn := parseNode_jsonText child (jsonTextTail more ++ ("]".toList ++ rest)) f
      (by omega)
    cases more with
    | nil =>
      simp only [jsonTextTail, List.nil_append] at hn
      simp only [jsonTextTail, List.append_nil, List.append_assoc, parseChildren, hn,
        expect_append, contentsList]
    | cons next others =>
      have hc := parseChildren_jsonText (next :: others) rest f (by omega)
      simp only [List.append_assoc] at hc
      simp only [jsonTextTail, List.append_assoc] at hn
      simp only [jsonTextTail, List.append_assoc, parseChildren, hn, expect_bracket_comma,
        expect_append, hc, contentsList]
end


/-! ## The serializer on machine integers -/

theorem jsonTextTail_eq (ts : List AstNode) :
    jsonTextTail ts = sepTail ",".toList (ts.map jsonText) := by
  induction ts with
  | nil => simp [jsonTextTail, sepTail]
  | cons t ts ih => simp only [jsonTextTail, List.map_cons, sepTail, ih]

/-- Joining a whole array whose joined length is at most `B`, itself at most
`INT_MAX` and below the fuel. -/
theorem concat_array32_all (gas : Nat) (heap : Heap) (array : List CStr) (d : CStr) (B : Nat)
    (hok : heap.ok = true) (hB : (B : Int) ≤ INT_MAX) (hg : B < gas)
    (hcount : array.length ≤ B)
    (hJ : (List.intercalate (cstr d) (array.map cstr)).length ≤ B) :
    ∃ s, concat_array32 gas heap array (array.length : Nat) d = .ptr s
      ∧ cstr s = List.intercalate (cstr d) (array.map cstr) := by
  rw [length_intercalate] at hJ
  have ht : array.take ((array.length : Nat) : Int).toNat = array := by
    rw [Int.toNat_ofNat, List.take_length]
  rw [concat_array32_eq_concat_array gas heap array (array.length : Nat) d hok (by omega)
    (by omega) (fun _ => by rw [ht]; omega) (fun _ => ⟨by omega, by rw [ht]; omega⟩)]
  obtain ⟨s, hs, hc, _⟩ := concat_array_ptr heap array (array.length : Nat) d hok
    (by omega) (by omega)
  refine ⟨s, hs, ?_⟩
  rw [hc, ht]

theorem nul_not_mem_escape (s : List Char) : NUL ∉ escape s := by
  induction s with
  | nil => simp [escape]
  | cons c s ih =>
    have hh : ∀ n, n < 16 → NUL ≠ hexDigit n := by
      intro n hn
      interval_cases n <;> decide
    have hq : NUL ≠ QUOTE := by decide
    have hb : NUL ≠ BACKSLASH := by decide
    have hu : NUL ≠ 'u' := by decide
    have h0 : NUL ≠ '0' := by decide
    simp only [escape, List.mem_append, not_or]
    refine ⟨?_, ih⟩
    unfold escapeChar
    split
    · simp [hq, hb]
    · split
      · simp [hb]
      · split
        · rename_i h3
          have hd : c.toNat / 16 < 16 := by omega
          have hm : c.toNat % 16 < 16 := by omega
          simp [hb, hu, h0, hh _ hd, hh _ hm]
        · rename_i h3
          simp only [List.mem_singleton]
          intro hc
          apply h3
          rw [← hc]
          decide

theorem cstr_json_escape (s : CStr) : cstr (json_escape s) = escape (cstr s) :=
  cstr_of_not_mem _ (nul_not_mem_escape _)

mutual
theorem fuelNeeded_le : ∀ t : AstNode, fuelNeeded t ≤ (jsonText t).length
  | .node kind payload children => by
    cases children with
    | nil => simp [fuelNeeded, fuelNeededList, jsonText]
    | cons child more =>
      have h := fuelNeededList_le (child :: more)
      have h3 : (",".toList).length = 1 := rfl
      have h4 : (",\"children\":[".toList).length = 13 := rfl
      simp only [jsonTextTail, List.length_append, h3] at h
      simp only [fuelNeeded, jsonText, List.length_append, h4]
      omega
theorem fuelNeededList_le : ∀ l : List AstNode, fuelNeededList l ≤ (jsonTextTail l).length
  | [] => by simp [fuelNeededList]
  | child :: more => by
    have h1 := fuelNeeded_le child
    have h2 := fuelNeededList_le more
    have h3 : (",".toList).length = 1 := rfl
    simp only [fuelNeededList, jsonTextTail, List.length_append, h3]
    omega
end


theorem length_le_sepTail (ts : List (List Char)) :
    ts.length ≤ (sepTail ",".toList ts).length := by
  induction ts with
  | nil => simp
  | cons t ts ih =>
    have h3 : (",".toList).length = 1 := rfl
    simp only [sepTail, List.length_cons, List.length_append, h3]
    omega

theorem children_part_ok (gas : Nat) (heap : Heap) (frags : List CStr) (B : Nat)
    (hok : heap.ok = true) (hB : (B : Int) ≤ INT_MAX) (hg : B < gas)
    (h : (sepTail ",".toList (frags.map cstr)).length ≤ B) :
    ∃ cp, children_part gas heap frags = .ok cp ∧ cp.length ≤ 3
      ∧ (cp.map cstr).flatten
        = (match frags with
          | [] => []
          | f :: fs => ",\"children\":[".toList ++ cstr f
              ++ sepTail ",".toList (fs.map cstr) ++ "]".toList) := by
  cases frags with
  | nil => exact ⟨[], rfl, by simp, rfl⟩
  | cons f fs =>
    have h3 : (",".toList).length = 1 := rfl
    have hc : cstr ",".toList = ",".toList := by decide
    have hcnt := length_le_sepTail (fs.map cstr)
    simp only [List.map_cons, sepTail, List.length_append, h3, List.length_map] at h hcnt
    obtain ⟨joined, hj, hcj⟩ := concat_array32_all gas heap (f :: fs) ",".toList B hok hB hg
      (by simp only [List.length_cons]; omega)
      (by rw [List.map_cons, intercalate_cons, hc, List.length_append]; omega)
    rw [List.map_cons, intercalate_cons, hc] at hcj
    have h1 : cstr ",\"children\":[".toList = ",\"children\":[".toList := by decide
    have h2 : cstr "]".toList = "]".toList := by decide
    refine ⟨[",\"children\":[".toList, joined, "]".toList], by simp only [children_part, hj],
      by simp, ?_⟩
    simp only [List.map_cons, List.map_nil, List.flatten_cons, List.flatten_nil, h1, h2, hcj,
      List.append_nil, List.append_assoc]

theorem cstr_payload_part (payload : Option CStr) :
    (payload_part payload).length ≤ 3
      ∧ ((payload_part payload).map cstr).flatten = payloadText payload := by
  cases payload with
  | none => exact ⟨by simp [payload_part], rfl⟩
  | some p =>
    have h1 : cstr ",\"payload\":\"".toList = ",\"payload\":".toList ++ [QUOTE] := by decide
    have h2 : cstr "\"".toList = [QUOTE] := by decide
    refine ⟨by simp [payload_part], ?_⟩
    simp only [payload_part, List.map_cons, List.map_nil, List.flatten_cons, List.flatten_nil,
      h1, h2, cstr_json_escape, quoted, payloadText, List.append_nil, List.append_assoc,
      List.singleton_append, List.cons_append, List.nil_append]

mutual
/-- With a successful allocation, a text of at most `B` characters, `B` at most
`INT_MAX` and below the fuel, the serializer returns the JSON text of the tree. -/
theorem to_json_ok (gas : Nat) (heap : Heap) (B : Nat) (hok : heap.ok = true)
    (hB : (B : Int) ≤ INT_MAX) (hg : B < gas) :
    ∀ t : AstNode, (jsonText t).length ≤ B →
      ∃ s, to_json gas heap t = .ptr s ∧ cstr s = jsonText t
  | .node kind payload children, hlen => by
    have hk1 : cstr "\x7b\"kind\":\"".toList = "\x7b\"kind\":".toList ++ [QUOTE] := by decide
    have hk2 : cstr "\"".toList = [QUOTE] := by decide
    have hk3 : cstr "\x7d".toList = "\x7d".toList := by decide
    have hl1 : ("\x7b\"kind\":".toList).length = 8 := rfl
    have hl2 : ("\x7d".toList).length = 1 := rfl
    have hl3 : (",".toList).length = 1 := rfl
    have hl4 : (",\"children\":[".toList).length = 13 := rfl
    have htail : (jsonTextTail children).length ≤ B := by
      cases children with
      | nil => simp [jsonTextTail]
      | cons child more =>
        simp only [jsonText, List.length_append, hl1, hl2, hl4] at hlen
        simp only [jsonTextTail, List.length_append, hl3]
        omega
    obtain ⟨frags, hfr, hmap, _⟩ := to_json_children_ok gas heap B hok hB hg children htail
    obtain ⟨cp, hcp, hcpl, hccp⟩ := children_part_ok gas heap frags B hok hB hg
      (by rw [hmap, ← jsonTextTail_eq]; exact htail)
    obtain ⟨hppl, hcpp⟩ := cstr_payload_part payload
    have htext : (((["\x7b\"kind\":\"".toList, json_escape kind, "\"".toList]
        ++ payload_part payload ++ cp ++ ["\x7d".toList]).map cstr).flatten)
        = jsonText (.node kind payload children) := by
      simp only [List.map_append, List.flatten_append, List.map_cons, List.map_nil,
        List.flatten_cons, List.flatten_nil, hk1, hk2, hk3, cstr_json_escape, hcpp, hccp,
        List.append_nil, List.append_assoc]
      cases children with
      | nil =>
        cases frags with
        | nil => simp only [jsonText, quoted, List.append_assoc, List.singleton_append,
            List.cons_append, List.nil_append, List.append_nil]
        | cons f fs => simp at hmap
      | cons child more =>
        cases frags with
        | nil => simp at hmap
        | cons f fs =>
          simp only [List.map_cons, List.cons.injEq] at hmap
          simp only [jsonText, quoted, hmap.1, hmap.2, jsonTextTail_eq, List.append_assoc,
            List.singleton_append, List.cons_append, List.nil_append, List.append_nil]
    have hB11 : 11 ≤ B := by
      have : 11 ≤ (jsonText (.node kind payload children)).length := by
        cases children <;>
          simp only [jsonText, quoted, List.length_append, List.length_cons, hl1, hl2] <;>
          omega
      omega
    obtain ⟨s, hs, hc⟩ := concat_array32_all gas heap
      (["\x7b\"kind\":\"".toList, json_escape kind, "\"".toList]
        ++ payload_part payload ++ cp ++ ["\x7d".toList]) [] B hok hB hg
      (by simp only [List.length_append, List.length_cons, List.length_nil]; omega)
      (by
        have hnil : cstr ([] : CStr) = [] := rfl
        rw [hnil, intercalate_nil, htext]; exact hlen)
    have hnil : cstr ([] : CStr) = [] := rfl
    rw [hnil, intercalate_nil, htext] at hc
    exact ⟨s, by simp only [to_json, hfr, hcp, hs], hc⟩
/-- With a successful allocation every child is serialized, in the stored order. -/
theorem to_json_children_ok (gas : Nat) (heap : Heap) (B : Nat) (hok : heap.ok = true)
    (hB : (B : Int) ≤ INT_MAX) (hg : B < gas) :
    ∀ ts : List AstNode, (jsonTextTail ts).length ≤ B →
      ∃ frags, to_json_children gas heap ts = .ok frags
        ∧ frags.map cstr = ts.map jsonText
        ∧ List.Forall₂ (fun child frag => to_json gas heap child = .ptr frag) ts frags
  | [], _ => ⟨[], rfl, rfl, List.Forall₂.nil⟩
  | child :: rest, hlen => by
    simp only [jsonTextTail, List.length_append] at hlen
    obtain ⟨s, hs, hc⟩ := to_json_ok gas heap B hok hB hg child (by omega)
    obtain ⟨frags, hfr, hcfr, hall⟩ := to_json_children_ok gas heap B hok hB hg rest (by omega)
    exact ⟨s :: frags, by simp only [to_json_children, hs, hfr], by simp [hc, hcfr],
      List.Forall₂.cons hs hall⟩
end


theorem escape_replicate (m : Nat) : escape (List.replicate m 'a') = List.replicate m 'a' := by
  induction m with
  | zero => rfl
  | succ m ih =>
    have h : escapeChar 'a' = ['a'] := by decide
    rw [List.replicate_succ, escape, ih, h]
    rfl

theorem cstr_replicate (m : Nat) : cstr (List.replicate m 'a') = List.replicate m 'a' := by
  apply cstr_of_not_mem
  intro h
  have := (List.mem_replicate.mp h).2
  exact absurd this (by decide)

theorem strlen_json_escape_hugeString : strlen (json_escape hugeString) = 2147483648 := by
  unfold json_escape hugeString
  rw [cstr_replicate, escape_replicate]
  exact strlen_replicate _ _ (by decide)

theorem joinedLen_nil (its : List CStr) : joinedLen its [] = (its.map strlen).sum := by
  have hs : strlen ([] : CStr) = 0 := rfl
  simp [joinedLen, hs]

/-- The serializer has undefined behaviour on the leaf with the payload of `2^31`
characters, whatever the fuel. -/
theorem to_json_hugeTree (gas : Nat) : to_json gas heapOk hugeTree = .undefined := by
  have hto : to_json gas heapOk hugeTree
      = concat_array32 gas heapOk
          ["\x7b\"kind\":\"".toList, json_escape "literal".toList, "\"".toList,
            ",\"payload\":\"".toList, json_escape hugeString, "\"".toList, "\x7d".toList]
          ((7 : Nat) : Int) [] := by
    simp only [hugeTree, to_json, to_json_children, children_part, payload_part,
      List.append_nil, List.cons_append, List.nil_append, List.length_cons, List.length_nil]
  have h1 : strlen "\x7b\"kind\":\"".toList = 9 := by decide
  have h2 : strlen (json_escape "literal".toList) = 7 := by decide
  have h3 : strlen "\"".toList = 1 := by decide
  have h4 : strlen ",\"payload\":\"".toList = 12 := by decide
  have h5 : strlen "\x7d".toList = 1 := by decide
  have ht : (["\x7b\"kind\":\"".toList, json_escape "literal".toList, "\"".toList,
      ",\"payload\":\"".toList, json_escape hugeString, "\"".toList,
      "\x7d".toList].take ((7 : Nat) : Int).toNat)
      = ["\x7b\"kind\":\"".toList, json_escape "literal".toList, "\"".toList,
      ",\"payload\":\"".toList, json_escape hugeString, "\"".toList, "\x7d".toList] := rfl
  have hj : joinedLen (["\x7b\"kind\":\"".toList, json_escape "literal".toList, "\"".toList,
      ",\"payload\":\"".toList, json_escape hugeString, "\"".toList,
      "\x7d".toList].take ((7 : Nat) : Int).toNat) [] = 2147483679 := by
    rw [ht, joinedLen_nil]
    simp only [List.map_cons, List.map_nil, List.sum_cons, List.sum_nil, h1, h2, h3, h4, h5,
      strlen_json_escape_hugeString]
    norm_num
  rw [hto]
  exact (concat_array32_overflow gas heapOk _ ((7 : Nat) : Int) [] rfl (by decide) (by decide)
    (by decide) (by rw [hj]; decide) (by rw [hj]; decide)).1

/-! ## The claims

The properties of `concat_array` and `repeat` are stated on the machine-integer
functions `concat_array32` and `repeat32`, for every amount of fuel beyond the count
and the length; the allocation-failure property is evaluated on both embeddings, which
coincide on the branches it concerns. -/

/-- C1 (amended): for every count `0 ≤ n ≤ INT_MAX`, every array holding at least `n`
strings and every delimiter `d` such that, when `n ≥ 2`, the joined length is at most
`2^31 - 1`, `concat_array` returns the first `n` elements joined with `d` between
consecutive elements and nowhere else: the empty string for `n = 0`, the element
`array[0]` itself for `n = 1`, exactly `array[0] + d + array[1]` for `n = 2`. -/
theorem concat_array_joins (gas : Nat) (heap : Heap) (array : List CStr) (n : Int) (d : CStr)
    (hok : heap.ok = true) (h0 : 0 ≤ n) (hmax : n ≤ INT_MAX) (hn : n ≤ array.length)
    (hfit : 2 ≤ n → (joinedLen (array.take n.toNat) d : Int) ≤ INT_MAX)
    (hgas : 2 ≤ n → n < gas ∧ joinedLen (array.take n.toNat) d < gas) :
    ∃ s, concat_array32 gas heap array n d = .ptr s
      ∧ cstr s = List.intercalate (cstr d) ((array.take n.toNat).map cstr)
      ∧ (n = 0 → cstr s = [])
      ∧ (n = 1 → array[0]? = some s)
      ∧ (n = 2 → ∀ a b, array[0]? = some a → array[1]? = some b →
          cstr s = cstr a ++ cstr d ++ cstr b) := by
  rw [concat_array32_eq_concat_array gas heap array n d hok hmax hn hfit hgas]
  obtain ⟨s, hs, hc, h1⟩ := concat_array_ptr heap array n d hok h0 hn
  refine ⟨s, hs, hc, ?_, h1, ?_⟩
  · intro hz
    subst hz
    simpa [List.intercalate] using hc
  · intro h2 a b ha hb
    subst h2
    match array, ha, hb with
    | x :: y :: rest, ha, hb =>
      simp only [List.getElem?_cons_zero, List.getElem?_cons_succ, Option.some.injEq] at ha hb
      subst ha hb
      rw [hc]
      simp [List.intercalate]

theorem concat_array_joins_witness :
    ∃ s, concat_array32 100 heapOk ["ab".toList, "".toList, "c".toList] 3 ", ".toList = .ptr s
      ∧ cstr s = List.intercalate (cstr ", ".toList)
          ((["ab".toList, "".toList, "c".toList].take (3 : Int).toNat).map cstr)
      ∧ ((3 : Int) = 0 → cstr s = [])
      ∧ ((3 : Int) = 1 → ["ab".toList, "".toList, "c".toList][0]? = some s)
      ∧ ((3 : Int) = 2 → ∀ a b, ["ab".toList, "".toList, "c".toList][0]? = some a →
          ["ab".toList, "".toList, "c".toList][1]? = some b →
          cstr s = cstr a ++ cstr ", ".toList ++ cstr b) :=
  concat_array_joins 100 heapOk ["ab".toList, "".toList, "c".toList] 3 ", ".toList rfl
    (by decide) (by decide) (by decide) (fun _ => by decide)
    (fun _ => ⟨by decide, by decide⟩)

/-- C1 as stated fails: joining two elements of `2^30` characters (count `2`, empty
delimiter, allocation succeeding) returns no joined string, whatever the fuel. -/
theorem concat_array_joins_overflow :
    ¬ ∃ (gas : Nat) (s : CStr),
        concat_array32 gas heapOk [bigString, bigString] 2 [] = .ptr s
        ∧ cstr s = List.intercalate (cstr []) ([bigString, bigString].map cstr) := by
  rintro ⟨gas, s, h, _⟩
  rw [(concat_array32_bigString gas).1] at h
  exact Outcome.noConfusion h

/-- C2 (amended): with the empty delimiter, `concat_array` returns the plain
concatenation of the first `n` elements, for every `0 ≤ n ≤ INT_MAX` and every array
of at least `n` strings (empty trailing elements included) whose total length, when
`n ≥ 2`, is at most `2^31 - 1`. -/
theorem concat_array_empty_delimiter (gas : Nat) (heap : Heap) (array : List CStr) (n : Int)
    (hok : heap.ok = true) (h0 : 0 ≤ n) (hmax : n ≤ INT_MAX) (hn : n ≤ array.length)
    (hfit : 2 ≤ n → (joinedLen (array.take n.toNat) [] : Int) ≤ INT_MAX)
    (hgas : 2 ≤ n → n < gas ∧ joinedLen (array.take n.toNat) [] < gas) :
    ∃ s, concat_array32 gas heap array n [] = .ptr s
      ∧ cstr s = ((array.take n.toNat).map cstr).flatten := by
  rw [concat_array32_eq_concat_array gas heap array n [] hok hmax hn hfit hgas]
  obtain ⟨s, hs, hc, _⟩ := concat_array_ptr heap array n [] hok h0 hn
  refine ⟨s, hs, ?_⟩
  rw [hc]
  exact intercalate_nil _

theorem concat_array_empty_delimiter_witness :
    ∃ s, concat_array32 100 heapOk ["ab".toList, "".toList, "".toList] 3 [] = .ptr s
      ∧ cstr s = ((["ab".toList, "".toList, "".toList].take (3 : Int).toNat).map cstr).flatten :=
  concat_array_empty_delimiter 100 heapOk ["ab".toList, "".toList, "".toList] 3 rfl
    (by decide) (by decide) (by decide) (fun _ => by decide)
    (fun _ => ⟨by decide, by decide⟩)

/-- C2 as stated fails: with the empty delimiter, two elements of `2^30` characters
are not returned concatenated, whatever the fuel. -/
theorem concat_array_empty_delimiter_overflow :
    ¬ ∃ (gas : Nat) (s : CStr),
        concat_array32 gas heapOk [bigString, bigString] 2 [] = .ptr s
        ∧ cstr s = ([bigString, bigString].map cstr).flatten := by
  rintro ⟨gas, s, h, _⟩
  rw [(concat_array32_bigString gas).1] at h
  exact Outcome.noConfusion h

/-- C3 (amended): for every `0 ≤ n ≤ INT_MAX` and every string `str` such that, when
`n ≥ 2`, `n × len(str)` is at most `2^31 - 1`, `repeat(n, str)` has length exactly
`n × len(str)`. -/
theorem repeat_length (gas : Nat) (heap : Heap) (n : Int) (str : CStr)
    (hok : heap.ok = true) (h0 : 0 ≤ n) (hmax : n ≤ INT_MAX)
    (hfit : 2 ≤ n → n * strlen str ≤ INT_MAX) (hgas : 2 ≤ n → n * strlen str < gas) :
    ∃ s, repeat32 gas heap n str = .ptr s ∧ (strlen s : Int) = n * strlen str := by
  rw [repeat32_eq_repeat gas heap n str hok hmax hfit hgas]
  obtain ⟨s, hs, hl, _⟩ := repeat_strlen_ideal heap n str hok h0
  exact ⟨s, hs, hl⟩

theorem repeat_length_witness :
    ∃ s, repeat32 100 heapOk 3 "ab".toList = .ptr s
      ∧ (strlen s : Int) = 3 * strlen "ab".toList :=
  repeat_length 100 heapOk 3 "ab".toList rfl (by decide) (by decide) (fun _ => by decide)
    (fun _ => by decide)

/-- C3 as stated fails: `repeat(2, str)` with `str` of `2^30` characters returns no
string of length `2 × len(str)`, whatever the fuel. -/
theorem repeat_length_overflow :
    ¬ ∃ (gas : Nat) (s : CStr), repeat32 gas heapOk 2 bigString = .ptr s
        ∧ (strlen s : Int) = 2 * strlen bigString := by
  rintro ⟨gas, s, h, _⟩
  rw [repeat32_bigString gas] at h
  exact Outcome.noConfusion h

/-- C4 (amended): for every `1 ≤ n ≤ INT_MAX` and every string `str` such that, when
`n ≥ 2`, `n × len(str)` is at most `2^31 - 1`, `repeat(n, str)` is `str` followed by
`repeat(n - 1, str)`; `repeat(0, str)` is the empty string, so `repeat(n, str)` is
the `n`-fold concatenation of `str` with no separator. -/
theorem repeat_unfold (gas : Nat) (heap : Heap) (n : Int) (str : CStr)
    (hok : heap.ok = true) (h1 : 1 ≤ n) (hmax : n ≤ INT_MAX)
    (hfit : 2 ≤ n → n * strlen str ≤ INT_MAX) (hgas : 2 ≤ n → n * strlen str < gas) :
    ∃ s p z, repeat32 gas heap n str = .ptr s ∧ repeat32 gas heap (n - 1) str = .ptr p
      ∧ repeat32 gas heap 0 str = .ptr z
      ∧ cstr s = cstr str ++ cstr p
      ∧ cstr z = []
      ∧ cstr s = (List.replicate n.toNat (cstr str)).flatten := by
  have hle : (n - 1) * (strlen str : Int) ≤ n * strlen str :=
    Int.mul_le_mul_of_nonneg_right (by omega) (by omega)
  rw [repeat32_eq_repeat gas heap n str hok hmax hfit hgas,
    repeat32_eq_repeat gas heap (n - 1) str hok (by omega)
      (fun h => by have := hfit (by omega); omega)
      (fun h => by have := hgas (by omega); omega),
    repeat32_eq_repeat gas heap 0 str hok (by decide) (fun h => by omega)
      (fun h => by omega)]
  obtain ⟨s, hs, hc⟩ := repeat_ptr heap n str hok (by omega)
  obtain ⟨p, hp, hcp⟩ := repeat_ptr heap (n - 1) str hok (by omega)
  obtain ⟨z, hz, hcz⟩ := repeat_ptr heap 0 str hok (by omega)
  refine ⟨s, p, z, hs, hp, hz, ?_, by simpa using hcz, hc⟩
  rw [hc, hcp]
  have hn : n.toNat = (n - 1).toNat + 1 := by omega
  rw [hn, List.replicate_succ, List.flatten_cons]

theorem repeat_unfold_witness :
    ∃ s p z, repeat32 100 heapOk 2 "ab".toList = .ptr s
      ∧ repeat32 100 heapOk (2 - 1) "ab".toList = .ptr p
      ∧ repeat32 100 heapOk 0 "ab".toList = .ptr z
      ∧ cstr s = cstr "ab".toList ++ cstr p
      ∧ cstr z = []
      ∧ cstr s = (List.replicate (2 : Int).toNat (cstr "ab".toList)).flatten :=
  repeat_unfold 100 heapOk 2 "ab".toList rfl (by decide) (by decide) (fun _ => by decide)
    (fun _ => by decide)

/-- C4 as stated fails: `repeat(2, str)` with `str` of `2^30` characters returns no
string, so it is not `str` followed by `repeat(1, str)`, whatever the fuel. -/
theorem repeat_unfold_overflow :
    ¬ ∃ (gas : Nat) (s p : CStr), repeat32 gas heapOk 2 bigString = .ptr s
        ∧ repeat32 gas heapOk (2 - 1) bigString = .ptr p
        ∧ cstr s = cstr bigString ++ cstr p := by
  rintro ⟨gas, s, p, h, _⟩
  rw [repeat32_bigString gas] at h
  exact Outcome.noConfusion h

/-- C5 (amended): `concat_array` returns a null result for every negative count,
whatever the fuel, the heap, the array and the delimiter are; for a count
`0 ≤ n ≤ INT_MAX` with at least `n` strings, a successful allocation and, when
`n ≥ 2`, a joined length of at most `2^31 - 1`, it returns a pointer: under these
conditions the result is null exactly when `n < 0`. -/
theorem concat_array_null_iff (gas : Nat) (heap : Heap) (array : List CStr) (n : Int)
    (d : CStr) (hok : heap.ok = true) (hmax : n ≤ INT_MAX) (hn : n ≤ array.length)
    (hfit : 2 ≤ n → (joinedLen (array.take n.toNat) d : Int) ≤ INT_MAX)
    (hgas : 2 ≤ n → n < gas ∧ joinedLen (array.take n.toNat) d < gas) :
    (concat_array32 gas heap array n d = .null ↔ n < 0)
      ∧ (n < 0 → ∀ gas1 heap1 array1 d1, concat_array32 gas1 heap1 array1 n d1 = .null)
      ∧ (0 ≤ n → ∃ s, concat_array32 gas heap array n d = .ptr s) := by
  have hneg : n < 0 → ∀ gas1 heap1 array1 d1,
      concat_array32 gas1 heap1 array1 n d1 = .null := by
    intro h gas1 heap1 array1 d1
    simp [concat_array32, h]
  have hpos : 0 ≤ n → ∃ s, concat_array32 gas heap array n d = .ptr s := by
    intro h0
    rw [concat_array32_eq_concat_array gas heap array n d hok hmax hn hfit hgas]
    obtain ⟨s, hs, _⟩ := concat_array_ptr heap array n d hok h0 hn
    exact ⟨s, hs⟩
  refine ⟨⟨?_, fun h => hneg h _ _ _ _⟩, hneg, hpos⟩
  intro hnull
  by_contra hge
  obtain ⟨s, hs⟩ := hpos (by omega)
  rw [hs] at hnull
  exact Outcome.noConfusion hnull

theorem concat_array_null_iff_witness :
    ((concat_array32 100 heapOk ["a".toList] (-1) ",".toList = .null ↔ (-1 : Int) < 0)
      ∧ ((-1 : Int) < 0 → ∀ gas1 heap1 array1 d1,
          concat_array32 gas1 heap1 array1 (-1) d1 = .null)
      ∧ ((0 : Int) ≤ -1 →
          ∃ s, concat_array32 100 heapOk ["a".toList] (-1) ",".toList = .ptr s))
    ∧ ((concat_array32 100 heapOk ["ab".toList, "".toList, "c".toList] 3 ", ".toList = .null
          ↔ (3 : Int) < 0)
      ∧ ((3 : Int) < 0 → ∀ gas1 heap1 array1 d1,
          concat_array32 gas1 heap1 array1 3 d1 = .null)
      ∧ ((0 : Int) ≤ 3 → ∃ s,
          concat_array32 100 heapOk ["ab".toList, "".toList, "c".toList] 3 ", ".toList
            = .ptr s)) :=
  ⟨concat_array_null_iff 100 heapOk ["a".toList] (-1) ",".toList rfl (by decide) (by decide)
      (fun h => absurd h (by decide)) (fun h => absurd h (by decide)),
    concat_array_null_iff 100 heapOk ["ab".toList, "".toList, "c".toList] 3 ", ".toList rfl
      (by decide) (by decide) (fun _ => by decide) (fun _ => ⟨by decide, by decide⟩)⟩

/-- C5 as stated fails: with the count `2 ≥ 0`, two valid strings of `2^30`
characters and a successful allocation, `concat_array` returns no pointer, whatever
the fuel: it has undefined behaviour. -/
theorem concat_array_null_iff_overflow :
    (0 : Int) ≤ 2 ∧ heapOk.ok = true
      ∧ (∀ gas : Nat, concat_array32 gas heapOk [bigString, bigString] 2 [] = .undefined)
      ∧ ¬ ∃ (gas : Nat) (s : CStr),
          concat_array32 gas heapOk [bigString, bigString] 2 [] = .ptr s := by
  refine ⟨by decide, rfl, fun gas => (concat_array32_bigString gas).1, ?_⟩
  rintro ⟨gas, s, h⟩
  rw [(concat_array32_bigString gas).1] at h
  exact Outcome.noConfusion h

/-- C6 (amended): `repeat` returns a null result for every `n < 0` (so for
`n = -1`), whatever the fuel, the heap and the string are; `repeat(0, str)` is the
empty string; for `0 ≤ n ≤ INT_MAX` with a successful allocation and, when `n ≥ 2`,
`n × len(str)` at most `2^31 - 1`, it returns a pointer: under these conditions the
result is null exactly when `n < 0`. -/
theorem repeat_null_iff (gas : Nat) (heap : Heap) (n : Int) (str : CStr)
    (hok : heap.ok = true) (hmax : n ≤ INT_MAX)
    (hfit : 2 ≤ n → n * strlen str ≤ INT_MAX) (hgas : 2 ≤ n → n * strlen str < gas) :
    (repeat32 gas heap n str = .null ↔ n < 0)
      ∧ (n < 0 → ∀ gas1 heap1 str1, repeat32 gas1 heap1 n str1 = .null)
      ∧ (∀ gas1 heap1 str1, repeat32 gas1 heap1 (-1) str1 = .null)
      ∧ (∃ z, repeat32 gas heap 0 str = .ptr z ∧ cstr z = [])
      ∧ (0 ≤ n → ∃ s, repeat32 gas heap n str = .ptr s) := by
  have hneg : ∀ m : Int, m < 0 → ∀ gas1 heap1 str1, repeat32 gas1 heap1 m str1 = .null := by
    intro m h gas1 heap1 str1
    simp [repeat32, h]
  have hpos : 0 ≤ n → ∃ s, repeat32 gas heap n str = .ptr s := by
    intro h0
    rw [repeat32_eq_repeat gas heap n str hok hmax hfit hgas]
    obtain ⟨s, hs, _⟩ := repeat_ptr heap n str hok h0
    exact ⟨s, hs⟩
  refine ⟨⟨?_, fun h => hneg n h _ _ _⟩, hneg n, hneg (-1) (by decide), ?_, hpos⟩
  · intro hnull
    by_contra hge
    obtain ⟨s, hs⟩ := hpos (by omega)
    rw [hs] at hnull
    exact Outcome.noConfusion hnull
  · rw [repeat32_eq_repeat gas heap 0 str hok (by decide) (fun h => by omega)
      (fun h => by omega)]
    obtain ⟨z, hz, hc⟩ := repeat_ptr heap 0 str hok (by decide)
    exact ⟨z, hz, by simpa using hc⟩

theorem repeat_null_iff_witness :
    ((repeat32 100 heapOk (-1) "ab".toList = .null ↔ (-1 : Int) < 0)
      ∧ ((-1 : Int) < 0 → ∀ gas1 heap1 str1, repeat32 gas1 heap1 (-1) str1 = .null)
      ∧ (∀ gas1 heap1 str1, repeat32 gas1 heap1 (-1) str1 = .null)
      ∧ (∃ z, repeat32 100 heapOk 0 "ab".toList = .ptr z ∧ cstr z = [])
      ∧ ((0 : Int) ≤ -1 → ∃ s, repeat32 100 heapOk (-1) "ab".toList = .ptr s))
    ∧ ((repeat32 100 heapOk 3 "ab".toList = .null ↔ (3 : Int) < 0)
      ∧ ((3 : Int) < 0 → ∀ gas1 heap1 str1, repeat32 gas1 heap1 3 str1 = .null)
      ∧ (∀ gas1 heap1 str1, repeat32 gas1 heap1 (-1) str1 = .null)
      ∧ (∃ z, repeat32 100 heapOk 0 "ab".toList = .ptr z ∧ cstr z = [])
      ∧ ((0 : Int) ≤ 3 → ∃ s, repeat32 100 heapOk 3 "ab".toList = .ptr s)) :=
  ⟨repeat_null_iff 100 heapOk (-1) "ab".toList rfl (by decide)
      (fun h => absurd h (by decide)) (fun h => absurd h (by decide)),
    repeat_null_iff 100 heapOk 3 "ab".toList rfl (by decide) (fun _ => by decide)
      (fun _ => by decide)⟩

/-- C6 as stated fails: with `n = 2 ≥ 0`, a string of `2^30` characters and a
successful allocation, `repeat` returns no pointer, whatever the fuel: it has
undefined behaviour. -/
theorem repeat_null_iff_overflow :
    (0 : Int) ≤ 2 ∧ heapOk.ok = true
      ∧ (∀ gas : Nat, repeat32 gas heapOk 2 bigString = .undefined)
      ∧ ¬ ∃ (gas : Nat) (s : CStr), repeat32 gas heapOk 2 bigString = .ptr s := by
  refine ⟨by decide, rfl, repeat32_bigString, ?_⟩
  rintro ⟨gas, s, h⟩
  rw [repeat32_bigString gas] at h
  exact Outcome.noConfusion h

/-- C7: when the allocation fails, `concat_array` with count `0` and `repeat` with
`n = 0` return null to the caller (their `calloc` result is not checked), whereas
the paths that allocate through `my_malloc` terminate the process with the
diagnostic of the operation.  This is so on mathematical integers and on machine
integers alike, there for every array, delimiter, string and amount of fuel. -/
theorem alloc_failure_returns_null :
    concat_array heapFull [] 0 [] = .null
      ∧ «repeat» heapFull 0 "ab".toList = .null
      ∧ concat_array heapFull ["a".toList, "b".toList] 2 ",".toList
          = .fatal "string concatenation"
      ∧ «repeat» heapFull 2 "ab".toList = .fatal "string repetition"
      ∧ (∀ (gas : Nat) (array : List CStr) (d : CStr),
          concat_array32 gas heapFull array 0 d = .null)
      ∧ (∀ (gas : Nat) (str : CStr), repeat32 gas heapFull 0 str = .null)
      ∧ (∀ gas : Nat, 2 < gas →
          concat_array32 gas heapFull ["a".toList, "b".toList] 2 ",".toList
            = .fatal "string concatenation")
      ∧ (∀ (gas : Nat) (str : CStr), repeat32 gas heapFull 2 str
          = .fatal "string repetition") := by
  refine ⟨by decide, by decide, by decide, by decide, ?_, ?_, ?_, ?_⟩
  · intro gas array d
    simp [concat_array32, calloc, heapFull]
  · intro gas str
    simp [repeat32, calloc, heapFull]
  · intro gas hgas
    obtain ⟨g, rfl⟩ : ∃ g, gas = g + 3 := ⟨gas - 3, by omega⟩
    have h : sumLens32 ["a".toList, "b".toList] 2 (g + 3) 0
        (wrapSize (strlen ",".toList * toSize (wrapInt (2 - 1)))) = some 3 := by
      have e0 : elemInt ["a".toList, "b".toList] 0 = some "a".toList := by decide
      have e1 : elemInt ["a".toList, "b".toList] 1 = some "b".toList := by decide
      have w0 : wrapSize (strlen ",".toList * toSize (wrapInt (2 - 1))) = 1 := by decide
      have w1 : wrapInt (0 + 1) = 1 := by decide
      have w2 : wrapInt (1 + 1) = 2 := by decide
      have s1 : wrapSize (1 + strlen "a".toList) = 2 := by decide
      have s2 : wrapSize (2 + strlen "b".toList) = 3 := by decide
      rw [w0, sumLens32, if_pos (by decide), e0]
      simp only []
      rw [w1, s1, sumLens32, if_pos (by decide), e1]
      simp only []
      rw [w2, s2, sumLens32, if_neg (by decide)]
    have c0 : ¬ (2 : Int) < 0 := by decide
    have c1 : ¬ (2 : Int) = 0 := by decide
    have c2 : ¬ (2 : Int) = 1 := by decide
    simp only [concat_array32, c0, c1, c2, if_false, h, my_malloc, heapFull]
    rfl
  · intro gas str
    simp [repeat32, my_malloc, heapFull]


/-- C8 (amended): for every `1 ≤ n ≤ INT_MAX`, every non-empty string `str` such
that, when `n ≥ 2`, `n × len(str)` is at most `2^31 - 1`, and every index `i` below
`n × len(str)`, the character at position `i` of `repeat(n, str)` is
`str[i mod len(str)]`. -/
theorem repeat_char_at (gas : Nat) (heap : Heap) (n : Int) (str : CStr) (i : Nat)
    (hok : heap.ok = true) (h1 : 1 ≤ n) (hmax : n ≤ INT_MAX) (hs : 0 < strlen str)
    (hi : (i : Int) < n * strlen str)
    (hfit : 2 ≤ n → n * strlen str ≤ INT_MAX) (hgas : 2 ≤ n → n * strlen str < gas) :
    ∃ s c, repeat32 gas heap n str = .ptr s ∧ s.at i = some c
      ∧ str.at (i % strlen str) = some c := by
  rw [repeat32_eq_repeat gas heap n str hok hmax hfit hgas]
  exact repeat_at_ideal heap n str i hok h1 hs hi

theorem repeat_char_at_witness :
    ∃ s c, repeat32 100 heapOk 3 "ab".toList = .ptr s ∧ s.at 5 = some c
      ∧ CStr.at "ab".toList (5 % strlen "ab".toList) = some c :=
  repeat_char_at 100 heapOk 3 "ab".toList 5 rfl (by decide) (by decide) (by decide)
    (by decide) (fun _ => by decide) (fun _ => by decide)

/-- C8 as stated fails: `repeat(2, str)` with `str` of `2^30` characters returns no
string, so there is no character at its position `0`, whatever the fuel. -/
theorem repeat_char_at_overflow :
    ¬ ∃ (gas : Nat) (s : CStr) (c : Char), repeat32 gas heapOk 2 bigString = .ptr s
        ∧ s.at 0 = some c ∧ bigString.at (0 % strlen bigString) = some c := by
  rintro ⟨gas, s, c, h, _⟩
  rw [repeat32_bigString gas] at h
  exact Outcome.noConfusion h

/-- C9 (amended): for every tree whose JSON text has at most `2^31 - 1` characters,
`to_json` produces a JSON object with the `"kind"` field first, the `"payload"` field
when the node has a payload, and the `"children"` array holding the recursively
serialized children in their stored order, the array being omitted when the node has
no children; the strings are escaped, so the text reads back as the node: its kind,
its payload or none, its children in order; for the `binary_expr` tree with the two
literals `1` and `2` the output is exactly the text of the spec. -/
theorem to_json_object (gas : Nat) (heap : Heap) (kind : CStr) (payload : Option CStr)
    (children : List AstNode) (hok : heap.ok = true)
    (hfit : ((jsonText (.node kind payload children)).length : Int) ≤ INT_MAX)
    (hgas : (jsonText (.node kind payload children)).length < gas) :
    (∃ s frags, to_json gas heap (.node kind payload children) = .ptr s
      ∧ List.Forall₂ (fun child frag => to_json gas heap child = .ptr frag) children frags
      ∧ cstr s = "\x7b\"kind\":".toList ++ quoted (cstr kind)
          ++ payloadText payload
          ++ (if children.isEmpty then []
              else ",\"children\":[".toList
                ++ List.intercalate ",".toList (frags.map cstr) ++ "]".toList)
          ++ "\x7d".toList
      ∧ ∀ (fuel : Nat) (rest : List Char), (cstr s).length ≤ fuel →
          parseNode fuel (cstr s ++ rest)
            = some ((AstNode.node kind payload children).contents, rest))
      ∧ (101 < gas → ∃ e, to_json gas heap binaryExprTree = .ptr e
          ∧ cstr e = ("\x7b\"kind\":\"binary_expr\",\"children\":["
              ++ "\x7b\"kind\":\"literal\",\"payload\":\"1\"\x7d,"
              ++ "\x7b\"kind\":\"literal\",\"payload\":\"2\"\x7d]\x7d").toList) := by
  constructor
  · obtain ⟨s, hs, hc⟩ := to_json_ok gas heap _ hok hfit hgas (.node kind payload children)
      (Nat.le_refl _)
    have hl1 : ("\x7b\"kind\":".toList).length = 8 := rfl
    have hl2 : ("\x7d".toList).length = 1 := rfl
    have hl3 : (",".toList).length = 1 := rfl
    have hl4 : (",\"children\":[".toList).length = 13 := rfl
    have htail : (jsonTextTail children).length
        ≤ (jsonText (.node kind payload children)).length := by
      cases children with
      | nil => simp [jsonTextTail]
      | cons child more =>
        simp only [jsonText, jsonTextTail, List.length_append, hl1, hl2, hl3, hl4]
        omega
    obtain ⟨frags, _, hmap, hall⟩ := to_json_children_ok gas heap _ hok hfit hgas children
      htail
    refine ⟨s, frags, hs, hall, ?_, ?_⟩
    · rw [hc, hmap]
      cases children with
      | nil => simp only [jsonText, List.isEmpty_nil, if_true]
      | cons child more =>
        simp only [jsonText, jsonTextTail_eq, List.map_cons, intercalate_cons,
          List.isEmpty_cons, Bool.false_eq_true, if_false, List.append_assoc]
    · intro fuel rest hfuel
      rw [hc] at hfuel ⊢
      exact parseNode_jsonText _ rest fuel (Nat.le_trans (fuelNeeded_le _) hfuel)
  · intro hgas1
    obtain ⟨e, he, hc⟩ := to_json_ok gas heap 101 hok (by decide) hgas1 binaryExprTree
      (by decide)
    refine ⟨e, he, ?_⟩
    rw [hc]
    decide

theorem to_json_object_witness :
    (∃ s frags, to_json 200 heapOk (.node "literal".toList (some "x".toList) []) = .ptr s
      ∧ List.Forall₂ (fun child frag => to_json 200 heapOk child = .ptr frag) [] frags
      ∧ cstr s = "\x7b\"kind\":".toList ++ quoted (cstr "literal".toList)
          ++ payloadText (some "x".toList)
          ++ (if ([] : List AstNode).isEmpty then []
              else ",\"children\":[".toList
                ++ List.intercalate ",".toList (frags.map cstr) ++ "]".toList)
          ++ "\x7d".toList
      ∧ ∀ (fuel : Nat) (rest : List Char), (cstr s).length ≤ fuel →
          parseNode fuel (cstr s ++ rest)
            = some ((AstNode.node "literal".toList (some "x".toList) []).contents, rest))
      ∧ (101 < 200 → ∃ e, to_json 200 heapOk binaryExprTree = .ptr e
          ∧ cstr e = ("\x7b\"kind\":\"binary_expr\",\"children\":["
              ++ "\x7b\"kind\":\"literal\",\"payload\":\"1\"\x7d,"
              ++ "\x7b\"kind\":\"literal\",\"payload\":\"2\"\x7d]\x7d").toList) :=
  to_json_object 200 heapOk "literal".toList (some "x".toList) [] rfl (by decide) (by decide)

/-- C9 as stated fails: for the leaf whose payload has `2^31` characters `to_json`
returns no text, whatever the fuel: joining the pieces of the object overflows the
write index of `concat_array`. -/
theorem to_json_object_overflow :
    (∀ gas : Nat, to_json gas heapOk hugeTree = .undefined)
      ∧ ¬ ∃ (gas : Nat) (s : CStr), to_json gas heapOk hugeTree = .ptr s := by
  refine ⟨to_json_hugeTree, ?_⟩
  rintro ⟨gas, s, h⟩
  rw [to_json_hugeTree gas] at h
  exact Outcome.noConfusion h

/-- C10 (amended): for every count `2 ≤ n ≤ INT_MAX`, every array of `n` strings and
every delimiter whose joined length is at most `2^31 - 1`, the size precomputed by
`concat_array` is the sum of the element lengths plus `(n - 1) × len(delimiter)`,
the block allocated has `len + 1` cells, the loop ends with `k = len` after writing
exactly the indices `0, ..., len - 1` (each below `len`), and the terminator is then
written at index `len`, inside the block, which ends up holding the joined string
and the terminator. -/
theorem concat_array_writes_in_bounds (gas : Nat) (heap : Heap) (array : List CStr)
    (n : Int) (d : CStr) (hok : heap.ok = true) (h2 : 2 ≤ n) (hmax : n ≤ INT_MAX)
    (hn : n ≤ array.length)
    (hfit : (joinedLen (array.take n.toNat) d : Int) ≤ INT_MAX)
    (hgas : n < gas) (hgas2 : joinedLen (array.take n.toNat) d < gas) :
    ∃ (len : Nat) (block : List Char) (res fin : Buf),
      sumLens32 array n gas 0 (wrapSize (strlen d * toSize (wrapInt (n - 1)))) = some len
      ∧ (len : Int) = ((array.take n.toNat).map strlen).sum + (n - 1) * strlen d
      ∧ my_malloc heap (wrapSize (len + 1)) "string concatenation" = .ok block
      ∧ block.length = len + 1
      ∧ joinLoop32 array n d len gas gas 0 ⟨block, []⟩ 0 = some (res, (len : Int))
      ∧ (∀ k ∈ res.log, k < len)
      ∧ res.log = (List.range len).reverse
      ∧ res.writeInt (len : Int) NUL = some fin
      ∧ fin.log = len :: res.log
      ∧ fin.cells = List.intercalate (cstr d) ((array.take n.toNat).map cstr) ++ [NUL]
      ∧ fin.cells.length = len + 1
      ∧ concat_array32 gas heap array n d = .ptr fin.cells := by
  have hcast := joinedLen_cast array n d (by omega) hn
  obtain ⟨m, rfl⟩ := Int.eq_ofNat_of_zero_le (show 0 ≤ n by omega)
  simp only [Int.toNat_ofNat] at hfit hgas2 hcast ⊢
  obtain ⟨block, res, fin, p1, p2, p3, p4, p5, p6, p7, p8, p9, p10⟩ :=
    concat_array32_run gas heap hok array m d (by omega) hmax (by omega) hfit
      (by omega) hgas2
  have hcells : fin.cells
      = List.intercalate (cstr d) ((array.take m).map cstr) ++ [NUL] := by
    have h := concat_array_of_two_le heap array (m : Int) d hok (by omega) (by omega)
    rw [p10, Int.toNat_ofNat] at h
    exact Outcome.ptr.inj h
  refine ⟨_, block, res, fin, p1, hcast, p2, p3, p4, p6, p5, p7, p8, hcells, ?_, p9⟩
  rw [hcells, List.length_append, length_intercalate, List.length_singleton]

theorem concat_array_writes_in_bounds_witness :
    ∃ (len : Nat) (block : List Char) (res fin : Buf),
      sumLens32 ["ab".toList, "".toList, "".toList] 3 100 0
          (wrapSize (strlen [] * toSize (wrapInt (3 - 1)))) = some len
      ∧ (len : Int) = ((["ab".toList, "".toList, "".toList].take (3 : Int).toNat).map strlen).sum
          + (3 - 1) * strlen []
      ∧ my_malloc heapOk (wrapSize (len + 1)) "string concatenation" = .ok block
      ∧ block.length = len + 1
      ∧ joinLoop32 ["ab".toList, "".toList, "".toList] 3 [] len 100 100 0 ⟨block, []⟩ 0
          = some (res, (len : Int))
      ∧ (∀ k ∈ res.log, k < len)
      ∧ res.log = (List.range len).reverse
      ∧ res.writeInt (len : Int) NUL = some fin
      ∧ fin.log = len :: res.log
      ∧ fin.cells = List.intercalate (cstr [])
          ((["ab".toList, "".toList, "".toList].take (3 : Int).toNat).map cstr) ++ [NUL]
      ∧ fin.cells.length = len + 1
      ∧ concat_array32 100 heapOk ["ab".toList, "".toList, "".toList] 3 [] = .ptr fin.cells :=
  concat_array_writes_in_bounds 100 heapOk ["ab".toList, "".toList, "".toList] 3 [] rfl
    (by decide) (by decide) (by decide) (by decide) (by decide) (by decide)

/-- C10 as stated fails: for the count `2` and two elements of `2^30` characters (the
precomputed size is `2^31`), a run of the loop that returns never leaves `k` at an
index of the block: `k` is negative when the terminator is written, whatever the
fuel and the block, and the call has undefined behaviour. -/
theorem concat_array_writes_in_bounds_overflow :
    (¬ ∃ (gas : Nat) (block : List Char) (res : Buf) (k : Int),
        joinLoop32 [bigString, bigString] 2 [] 2147483648 gas gas 0 ⟨block, []⟩ 0
          = some (res, k) ∧ 0 ≤ k)
      ∧ ∀ gas : Nat, concat_array32 gas heapOk [bigString, bigString] 2 [] = .undefined := by
  refine ⟨?_, fun gas => (concat_array32_bigString gas).1⟩
  rintro ⟨gas, block, res, k, h, hk⟩
  have := (concat_array32_bigString gas).2 block res k h
  omega

/-- C11: `repeat` never divides by zero, for every `n` and every string: when
`src_len = 0` the fill loop, run with the result length `src_len * n` that `repeat`
computes, ends at its first test for every fuel, index and buffer, so the modulo
(which an iteration with `src_len = 0` would evaluate, an undefined operation) is
reached only when `src_len > 0`; for `n > 1`, `repeat(n, "")` is the empty string. -/
theorem repeat_total (gas : Nat) (heap : Heap) (n : Int) (str : CStr) :
    (strlen str = 0 → ∀ (fuel : Nat) (i : Int) (res : Buf),
        fillLoop32 str (strlen str) (wrapSize (strlen str * toSize n)) (fuel + 1) i res
          = some (res, i))
      ∧ (∀ (res_len fuel : Nat) (i : Int) (res : Buf), toSize i < res_len →
          fillLoop32 str 0 res_len (fuel + 1) i res = none)
      ∧ (1 < n → heap.ok = true → strlen str = 0 → 0 < gas →
          repeat32 gas heap n str = .ptr [NUL] ∧ cstr [NUL] = []) := by
  refine ⟨?_, ?_, ?_⟩
  · intro hs fuel i res
    simp [fillLoop32, hs, wrapSize]
  · intro res_len fuel i res hlt
    simp [fillLoop32, hlt]
  · intro h1 hok hs hgas
    refine ⟨?_, by simp [cstr]⟩
    obtain ⟨g, rfl⟩ : ∃ g, gas = g + 1 := ⟨gas - 1, by omega⟩
    have c0 : ¬ n < 0 := by omega
    have c1 : ¬ n = 0 := by omega
    have c2 : ¬ n = 1 := by omega
    simp [repeat32, c0, c1, c2, hs, wrapSize, my_malloc, hok, fillLoop32, Buf.writeInt,
      Buf.write, List.range_succ]

theorem repeat_total_witness :
    (strlen [] = 0 → ∀ (fuel : Nat) (i : Int) (res : Buf),
        fillLoop32 [] (strlen []) (wrapSize (strlen [] * toSize 3)) (fuel + 1) i res
          = some (res, i))
      ∧ (∀ (res_len fuel : Nat) (i : Int) (res : Buf), toSize i < res_len →
          fillLoop32 [] 0 res_len (fuel + 1) i res = none)
      ∧ ((1 : Int) < 3 → heapOk.ok = true → strlen [] = 0 → 0 < 1 →
          repeat32 1 heapOk 3 [] = .ptr [NUL] ∧ cstr [NUL] = []) :=
  repeat_total 1 heapOk 3 []

/-- C12 (amended): for every count `1 ≤ n ≤ INT_MAX`, every array of at least `n`
strings and every delimiter `d` such that, when `n ≥ 2`, the joined length is at
most `2^31 - 1`, the length of `concat_array(array, n, d)` is the sum of the lengths
of the first `n` elements plus `(n - 1) × len(d)`. -/
theorem concat_array_length (gas : Nat) (heap : Heap) (array : List CStr) (n : Int)
    (d : CStr) (hok : heap.ok = true) (h1 : 1 ≤ n) (hmax : n ≤ INT_MAX)
    (hn : n ≤ array.length)
    (hfit : 2 ≤ n → (joinedLen (array.take n.toNat) d : Int) ≤ INT_MAX)
    (hgas : 2 ≤ n → n < gas ∧ joinedLen (array.take n.toNat) d < gas) :
    ∃ s, concat_array32 gas heap array n d = .ptr s
      ∧ (strlen s : Int) = ((array.take n.toNat).map strlen).sum + (n - 1) * strlen d := by
  rw [concat_array32_eq_concat_array gas heap array n d hok hmax hn hfit hgas]
  obtain ⟨s, hs, hc, _⟩ := concat_array_ptr heap array n d hok (by omega) hn
  refine ⟨s, hs, ?_⟩
  rw [← length_cstr s, hc, length_intercalate]
  exact joinedLen_cast array n d h1 hn

theorem concat_array_length_witness :
    ∃ s, concat_array32 100 heapOk ["ab".toList, "".toList, "c".toList] 3 ", ".toList = .ptr s
      ∧ (strlen s : Int)
        = ((["ab".toList, "".toList, "c".toList].take (3 : Int).toNat).map strlen).sum
          + (3 - 1) * strlen ", ".toList :=
  concat_array_length 100 heapOk ["ab".toList, "".toList, "c".toList] 3 ", ".toList rfl
    (by decide) (by decide) (by decide) (fun _ => by decide)
    (fun _ => ⟨by decide, by decide⟩)

/-- C12 as stated fails: for the count `2` and two elements of `2^30` characters,
`concat_array` returns no string of the length `2^30 + 2^30`, whatever the fuel. -/
theorem concat_array_length_overflow :
    ¬ ∃ (gas : Nat) (s : CStr),
        concat_array32 gas heapOk [bigString, bigString] 2 [] = .ptr s
        ∧ (strlen s : Int) = (([bigString, bigString].take (2 : Int).toNat).map strlen).sum
            + (2 - 1) * strlen [] := by
  rintro ⟨gas, s, h, _⟩
  rw [(concat_array32_bigString gas).1] at h
  exact Outcome.noConfusion h

/-- C13 (amended): for every `0 ≤ n ≤ INT_MAX` and every string `str` such that, when
`n ≥ 2`, `n × len(str)` is at most `2^31 - 1`, `concat_array` applied to an array of
`n` copies of `str` with the empty delimiter returns what `repeat(n, str)` returns,
a string holding `n` copies of `str`. -/
theorem concat_array_replicate (gas : Nat) (heap : Heap) (n : Int) (str : CStr)
    (hok : heap.ok = true) (h0 : 0 ≤ n) (hmax : n ≤ INT_MAX)
    (hfit : 2 ≤ n → n * strlen str ≤ INT_MAX)
    (hgas : 2 ≤ n → n < gas ∧ n * strlen str < gas) :
    ∃ s, concat_array32 gas heap (List.replicate n.toNat str) n [] = .ptr s
      ∧ repeat32 gas heap n str = .ptr s
      ∧ cstr s = (List.replicate n.toNat (cstr str)).flatten := by
  have hj : (joinedLen ((List.replicate n.toNat str).take n.toNat) [] : Int)
      = n * strlen str := by
    rw [joinedLen_replicate]
    push_cast
    rw [Int.toNat_of_nonneg h0]
  rw [repeat32_eq_repeat gas heap n str hok hmax hfit (fun h => (hgas h).2),
    concat_array32_eq_concat_array gas heap (List.replicate n.toNat str) n [] hok hmax
      (by simp only [List.length_replicate]; omega)
      (fun h => by rw [hj]; exact hfit h)
      (fun h => ⟨(hgas h).1, by have := (hgas h).2; rw [← hj] at this; exact_mod_cast this⟩)]
  exact concat_array_replicate_ideal heap n str hok h0

theorem concat_array_replicate_witness :
    ∃ s, concat_array32 100 heapOk (List.replicate (3 : Int).toNat "ab".toList) 3 [] = .ptr s
      ∧ repeat32 100 heapOk 3 "ab".toList = .ptr s
      ∧ cstr s = (List.replicate (3 : Int).toNat (cstr "ab".toList)).flatten :=
  concat_array_replicate 100 heapOk 3 "ab".toList rfl (by decide) (by decide)
    (fun _ => by decide) (fun _ => ⟨by decide, by decide⟩)

/-- C13 as stated fails: for `n = 2` and `str` of `2^30` characters neither
`concat_array` on two copies of `str` nor `repeat(2, str)` returns a string, whatever
the fuel, so they do not return equal strings. -/
theorem concat_array_replicate_overflow :
    ¬ ∃ (gas : Nat) (s : CStr),
        concat_array32 gas heapOk (List.replicate (2 : Int).toNat bigString) 2 [] = .ptr s
        ∧ repeat32 gas heapOk 2 bigString = .ptr s := by
  rintro ⟨gas, s, _, h⟩
  rw [repeat32_bigString gas] at h
  exact Outcome.noConfusion h

/-- C14 (amended): for every `m ≥ 0`, `n ≥ 0` and every string `str` such that `m`,
`n` and the product `m × n` are at most `INT_MAX`, `n × len(str)` is at most
`2^31 - 1` when `n ≥ 2`, and `m × n × len(str)` is at most `2^31 - 1` when
`m × n ≥ 2`, `repeat(m, repeat(n, str))` returns what `repeat(m × n, str)` returns,
a string holding `m × n` copies of `str` (given some fuel, and fuel beyond these
lengths). -/
theorem repeat_repeat (gas : Nat) (heap : Heap) (m n : Int) (str : CStr)
    (hok : heap.ok = true) (hm : 0 ≤ m) (hn : 0 ≤ n)
    (hmmax : m ≤ INT_MAX) (hnmax : n ≤ INT_MAX) (hprod : m * n ≤ INT_MAX)
    (hfit1 : 2 ≤ n → n * strlen str ≤ INT_MAX)
    (hfit2 : 2 ≤ m * n → m * n * strlen str ≤ INT_MAX)
    (hgas0 : 0 < gas) (hgas1 : 2 ≤ n → n * strlen str < gas)
    (hgas2 : 2 ≤ m * n → m * n * strlen str < gas) :
    ∃ r s, repeat32 gas heap n str = .ptr r ∧ repeat32 gas heap m r = .ptr s
      ∧ repeat32 gas heap (m * n) str = .ptr s
      ∧ cstr s = (List.replicate (m * n).toNat (cstr str)).flatten := by
  obtain ⟨r, s, hr, hs, hp, hc, hlen⟩ := repeat_repeat_ideal heap m n str hok hm hn
  have hmn : 2 ≤ m → n ≠ 0 → 2 ≤ m * n := by
    intro h2 hn0
    have h1 : 1 ≤ n := by omega
    nlinarith
  have hassoc : m * (strlen r : Int) = m * n * strlen str := by
    rw [hlen, Int.mul_assoc]
  refine ⟨r, s, ?_, ?_, ?_, hc⟩
  · rw [repeat32_eq_repeat gas heap n str hok hnmax hfit1 hgas1]
    exact hr
  · rw [repeat32_eq_repeat gas heap m r hok hmmax ?_ ?_]
    · exact hs
    · intro h2
      by_cases hn0 : n = 0
      · rw [hassoc, hn0]; simp [INT_MAX]
      · rw [hassoc]; exact hfit2 (hmn h2 hn0)
    · intro h2
      by_cases hn0 : n = 0
      · rw [hassoc, hn0]
        simp only [Int.mul_zero, Int.zero_mul]
        exact_mod_cast hgas0
      · rw [hassoc]; exact hgas2 (hmn h2 hn0)
  · rw [repeat32_eq_repeat gas heap (m * n) str hok hprod hfit2 hgas2]
    exact hp

theorem repeat_repeat_witness :
    ∃ r s, repeat32 100 heapOk 3 "ab".toList = .ptr r ∧ repeat32 100 heapOk 2 r = .ptr s
      ∧ repeat32 100 heapOk (2 * 3) "ab".toList = .ptr s
      ∧ cstr s = (List.replicate ((2 : Int) * 3).toNat (cstr "ab".toList)).flatten :=
  repeat_repeat 100 heapOk 2 3 "ab".toList rfl (by decide) (by decide) (by decide)
    (by decide) (by decide) (fun _ => by decide) (fun _ => by decide) (by decide)
    (fun _ => by decide) (fun _ => by decide)

/-- C14 as stated fails, in two ways.  With `m = 65536`, `n = 32768` and the empty
string, `repeat(m, repeat(n, ""))` is the empty string, but the `int` product
`m * n` wraps to `-2^31` and `repeat(m * n, "")` is null.  With `m = 2`, `n = 1` and
`str` of `2^30` characters, `repeat(1, str)` is `str`, and both `repeat(2, str)` and
`repeat(2 * 1, str)` have undefined behaviour, whatever the fuel. -/
theorem repeat_repeat_overflow :
    (∀ gas : Nat, 0 < gas →
        repeat32 gas heapOk 32768 [] = .ptr [NUL]
        ∧ repeat32 gas heapOk 65536 [NUL] = .ptr [NUL])
      ∧ wrapInt (65536 * 32768) = -2147483648
      ∧ (∀ gas : Nat, repeat32 gas heapOk (wrapInt (65536 * 32768)) [] = .null)
      ∧ (∀ gas : Nat, repeat32 gas heapOk 1 bigString = .ptr bigString
          ∧ repeat32 gas heapOk 2 bigString = .undefined
          ∧ repeat32 gas heapOk (2 * 1) bigString = .undefined) := by
  have hw : wrapInt (65536 * 32768) = -2147483648 := by decide
  have hz : strlen ([] : CStr) = 0 := rfl
  have hz1 : strlen [NUL] = 0 := by decide
  refine ⟨?_, hw, ?_, ?_⟩
  · intro gas hgas
    constructor
    · rw [repeat32_eq_repeat gas heapOk 32768 [] rfl (by decide)
        (fun _ => by rw [hz]; decide) (fun _ => by rw [hz]; simpa using hgas)]
      have h := (repeat_cases heapOk 32768 [] rfl).2.2 (by decide)
      have hc : cstr ([] : CStr) = [] := rfl
      rw [hc, List.flatten_replicate_nil, List.nil_append] at h
      exact h
    · rw [repeat32_eq_repeat gas heapOk 65536 [NUL] rfl (by decide)
        (fun _ => by rw [hz1]; decide) (fun _ => by rw [hz1]; simpa using hgas)]
      have h := (repeat_cases heapOk 65536 [NUL] rfl).2.2 (by decide)
      have hc : cstr [NUL] = [] := by decide
      rw [hc, List.flatten_replicate_nil, List.nil_append] at h
      exact h
  · intro gas
    rw [hw]
    simp [repeat32]
  · intro gas
    refine ⟨by simp [repeat32], repeat32_bigString gas, repeat32_bigString gas⟩

/-- C15: with `int` as 32-bit two's complement and `size_t` as unsigned 64-bit, for
every `n > 1` and `str` with `n × len(str) ≤ 2^31 - 1` the product `src_len * n` of
`repeat` does not wrap, no increment of the loop index `i` leaves the `int` range,
and the loop ends with `i = n × len(str)`, where the terminator is written; for
every `concat_array` input with at least two elements whose output length is at
most `2^31 - 1`, no increment of the write index `k` leaves the `int` range, the
conversion of `k` to `size_t` for `k == len` keeps its value, and the loop ends with
`k = len`.  In both cases the machine-integer run returns what the run on
mathematical integers returns, given fuel beyond the count and the length; with
fewer than two elements `concat_array` has no write index and the two runs agree. -/
theorem machine_indices_in_range (gas : Nat) (heap : Heap) (hok : heap.ok = true) :
    (∀ (n : Int) (str : CStr), 1 < n → n ≤ INT_MAX → n * strlen str ≤ INT_MAX →
        n * strlen str < gas →
        ∃ (block : List Char) (res fin : Buf),
          wrapSize (strlen str * toSize n) = strlen str * n.toNat
          ∧ ((strlen str * n.toNat : Nat) : Int) = n * strlen str
          ∧ my_malloc heap (wrapSize (strlen str * n.toNat + 1)) "string repetition"
            = .ok block
          ∧ fillLoop32 str (strlen str) (strlen str * n.toNat) gas 0 ⟨block, []⟩
            = some (res, n * strlen str)
          ∧ res.log = (List.range (strlen str * n.toNat)).reverse
          ∧ (∀ i ∈ res.log, (i : Int) + 1 ≤ INT_MAX ∧ wrapInt ((i : Int) + 1) = (i : Int) + 1
              ∧ toSize (i : Int) = i)
          ∧ res.writeInt (n * strlen str) NUL = some fin
          ∧ fin.log = (strlen str * n.toNat) :: res.log
          ∧ repeat32 gas heap n str = .ptr fin.cells
          ∧ «repeat» heap n str = .ptr fin.cells)
    ∧ (∀ (array : List CStr) (n : Int) (d : CStr) (len : Nat),
        2 ≤ n → n ≤ INT_MAX → n ≤ array.length →
        len = joinedLen (array.take n.toNat) d → (len : Int) ≤ INT_MAX →
        n < gas → len < gas →
        ∃ (block : List Char) (res fin : Buf),
          sumLens32 array n gas 0 (wrapSize (strlen d * toSize (wrapInt (n - 1)))) = some len
          ∧ my_malloc heap (wrapSize (len + 1)) "string concatenation" = .ok block
          ∧ joinLoop32 array n d len gas gas 0 ⟨block, []⟩ 0 = some (res, (len : Int))
          ∧ res.log = (List.range len).reverse
          ∧ (∀ k ∈ res.log, (k : Int) + 1 ≤ INT_MAX ∧ wrapInt ((k : Int) + 1) = (k : Int) + 1
              ∧ toSize (k : Int) = k)
          ∧ toSize (len : Int) = len
          ∧ res.writeInt (len : Int) NUL = some fin
          ∧ fin.log = len :: res.log
          ∧ concat_array32 gas heap array n d = .ptr fin.cells
          ∧ concat_array heap array n d = .ptr fin.cells)
    ∧ (∀ (array : List CStr) (n : Int) (d : CStr), n < 2 →
        concat_array32 gas heap array n d = concat_array heap array n d) := by
  refine ⟨?_, ?_, ?_⟩
  · intro n str h1 hmax hprod hgas
    obtain ⟨m, rfl⟩ := Int.eq_ofNat_of_zero_le (show 0 ≤ n by omega)
    have hcast : ((strlen str * m : Nat) : Int) = (m : Int) * strlen str := by
      push_cast; exact Int.mul_comm _ _
    obtain ⟨block, res, fin, p1, p2, _, p4, p5, p6, p7, p8, p9, p10⟩ :=
      repeat32_run gas heap hok m str (by omega) hmax (by rw [hcast]; exact hprod)
        (by rw [← hcast] at hgas; exact_mod_cast hgas)
    rw [hcast] at p4 p7
    refine ⟨block, res, fin, ?_⟩
    simp only [Int.toNat_ofNat]
    refine ⟨p1, hcast, p2, p4, p5, ?_, p7, p8, p9, p10⟩
    intro i hi
    have hlt := p6 i hi
    have hi1 : (i : Int) + 1 ≤ INT_MAX := by rw [← hcast] at hprod; omega
    exact ⟨hi1, wrapInt_eq _ (by omega) hi1, toSize_eq i (by omega)⟩
  · intro array n d len h2 hmax hn hlen hlmax hgas hgas2
    obtain ⟨m, rfl⟩ := Int.eq_ofNat_of_zero_le (show 0 ≤ n by omega)
    simp only [Int.toNat_ofNat] at hlen
    subst hlen
    obtain ⟨block, res, fin, p1, p2, _, p4, p5, p6, p7, p8, p9, p10⟩ :=
      concat_array32_run gas heap hok array m d (by omega) hmax (by omega) hlmax
        (by omega) hgas2
    refine ⟨block, res, fin, p1, p2, p4, p5, ?_, toSize_eq _ hlmax, p7, p8, p9, p10⟩
    intro k hk
    have hlt := p6 k hk
    have hk1 : (k : Int) + 1 ≤ INT_MAX := by omega
    exact ⟨hk1, wrapInt_eq _ (by omega) hk1, toSize_eq k (by omega)⟩
  · intro array n d h
    by_cases c0 : n < 0
    · simp [concat_array32, concat_array, c0]
    by_cases c1 : n = 0
    · simp [concat_array32, concat_array, c1]
    have c2 : n = 1 := by omega
    simp [concat_array32, concat_array, c2]

theorem machine_indices_in_range_witness :
    (∃ (block : List Char) (res fin : Buf),
        wrapSize (strlen "ab".toList * toSize 3) = strlen "ab".toList * (3 : Int).toNat
        ∧ ((strlen "ab".toList * (3 : Int).toNat : Nat) : Int) = 3 * strlen "ab".toList
        ∧ my_malloc heapOk (wrapSize (strlen "ab".toList * (3 : Int).toNat + 1))
            "string repetition" = .ok block
        ∧ fillLoop32 "ab".toList (strlen "ab".toList) (strlen "ab".toList * (3 : Int).toNat)
            100 0 ⟨block, []⟩ = some (res, (3 : Int) * strlen "ab".toList)
        ∧ res.log = (List.range (strlen "ab".toList * (3 : Int).toNat)).reverse
        ∧ (∀ i ∈ res.log, (i : Int) + 1 ≤ INT_MAX ∧ wrapInt ((i : Int) + 1) = (i : Int) + 1
            ∧ toSize (i : Int) = i)
        ∧ res.writeInt ((3 : Int) * strlen "ab".toList) NUL = some fin
        ∧ fin.log = (strlen "ab".toList * (3 : Int).toNat) :: res.log
        ∧ repeat32 100 heapOk 3 "ab".toList = .ptr fin.cells
        ∧ «repeat» heapOk 3 "ab".toList = .ptr fin.cells)
    ∧ (∃ (block : List Char) (res fin : Buf),
        sumLens32 ["ab".toList, "".toList, "c".toList] 3 100 0
            (wrapSize (strlen ", ".toList * toSize (wrapInt (3 - 1)))) = some 7
        ∧ my_malloc heapOk (wrapSize (7 + 1)) "string concatenation" = .ok block
        ∧ joinLoop32 ["ab".toList, "".toList, "c".toList] 3 ", ".toList 7 100 100 0
            ⟨block, []⟩ 0 = some (res, ((7 : Nat) : Int))
        ∧ res.log = (List.range 7).reverse
        ∧ (∀ k ∈ res.log, (k : Int) + 1 ≤ INT_MAX ∧ wrapInt ((k : Int) + 1) = (k : Int) + 1
            ∧ toSize (k : Int) = k)
        ∧ toSize ((7 : Nat) : Int) = 7
        ∧ res.writeInt ((7 : Nat) : Int) NUL = some fin
        ∧ fin.log = 7 :: res.log
        ∧ concat_array32 100 heapOk ["ab".toList, "".toList, "c".toList] 3 ", ".toList
            = .ptr fin.cells
        ∧ concat_array heapOk ["ab".toList, "".toList, "c".toList] 3 ", ".toList
            = .ptr fin.cells)
    ∧ concat_array32 100 heapOk ["ab".toList] 1 ", ".toList
        = concat_array heapOk ["ab".toList] 1 ", ".toList :=
  ⟨(machine_indices_in_range 100 heapOk rfl).1 3 "ab".toList (by decide) (by decide)
      (by decide) (by decide),
    (machine_indices_in_range 100 heapOk rfl).2.1 ["ab".toList, "".toList, "c".toList] 3
      ", ".toList 7 (by decide) (by decide) (by decide) (by decide) (by decide) (by decide)
      (by decide),
    (machine_indices_in_range 100 heapOk rfl).2.2 ["ab".toList] 1 ", ".toList (by decide)⟩

end CToJson
